import Mathlib

/-!
Verification development for the Webflow-article / GA4 traffic tracker.

The Python sources are shallowly embedded below:
* dates and the two-format publish-date parser (`main._parse_publish_date`,
  `main._sort_key`, `main._is_recent`, `main._publish_year`),
* the GA4 client (`ga4_client._normalize_path`, `ga4_client._chunked`,
  `ga4_client.fetch_traffic_by_path`),
* the shared bounded-retry executor (`ga4_client._run_report_with_retries`,
  `sheets_writer._retry_call`),
* the reconciliation engine of `main.main` (standard mode with hydration,
  and backfill mode),
* the run coordinator of `app.py` (`run`, `run_sync_in_thread`).

Machine dates are modelled as proleptic-Gregorian triples with the ordinal
function of CPython's `datetime.date.toordinal`; strings are handled as
`List Char` where convenient.  All definitions are executable.
-/

/-- ASCII whitespace as recognised by Python's `str.strip` / regex `\s`
for the ASCII range (the inputs of this program are ASCII). -/
def isPySpace (c : Char) : Bool :=
  c = ' ' || c = '\t' || c = '\n' || c = '\r' || c = '\x0b' || c = '\x0c'

/-- Python `str.strip` on a character list: drop whitespace on both ends. -/
def stripChars (cs : List Char) : List Char :=
  ((cs.dropWhile isPySpace).reverse.dropWhile isPySpace).reverse

/-- A calendar date as carried by Python's `datetime.date`. -/
structure PyDate where
  year : Nat
  month : Nat
  day : Nat
deriving DecidableEq, Repr

/-- A datetime at minute precision, as produced by
`datetime.strptime` with the formats used in `main.py`. -/
structure PyDateTime where
  date : PyDate
  hour : Nat
  minute : Nat
deriving DecidableEq, Repr

/-- Gregorian leap-year rule (CPython `calendar.isleap`). -/
def isLeap (y : Nat) : Bool :=
  y % 4 = 0 && (y % 100 ≠ 0 || y % 400 = 0)

/-- Number of days in a month (month in 1..12). -/
def daysInMonth (y m : Nat) : Nat :=
  if m = 2 then (if isLeap y then 29 else 28)
  else if m = 4 || m = 6 || m = 9 || m = 11 then 30
  else 31

/-- Days in the year strictly before month `m` (month in 1..12). -/
def daysBeforeMonth (y m : Nat) : Nat :=
  (match m with
   | 1 => 0 | 2 => 31 | 3 => 59 | 4 => 90 | 5 => 120 | 6 => 151
   | 7 => 181 | 8 => 212 | 9 => 243 | 10 => 273 | 11 => 304 | _ => 334)
  + (if 3 ≤ m && isLeap y then 1 else 0)

/-- CPython `datetime.date.toordinal`: day count since 0001-01-00 in the
proleptic Gregorian calendar; `date(1,1,1).toordinal() = 1`. -/
def toOrdinal (d : PyDate) : Nat :=
  365 * (d.year - 1) + (d.year - 1) / 4 - (d.year - 1) / 100 + (d.year - 1) / 400
    + daysBeforeMonth d.year d.month + d.day

/-- Minute-precision sort key of a `PyDateTime` (order-isomorphic to
CPython datetime comparison on valid values). -/
def dtKey (dt : PyDateTime) : Nat :=
  toOrdinal dt.date * 1440 + dt.hour * 60 + dt.minute

/-- The value `datetime.min` used by `main._sort_key` for unparseable dates. -/
def pyDateTimeMin : PyDateTime := ⟨⟨1, 1, 1⟩, 0, 0⟩

/-- Validity check performed by the `datetime` constructor for the fields
already range-limited by the strptime regexes: `MINYEAR = 1` and the day
must fit the month. -/
def validDate (y m d : Nat) : Bool :=
  1 ≤ y && d ≤ daysInMonth y m

/-- Numeric value of a digit character. -/
def digitVal (c : Char) : Nat := c.toNat - 48

/-- Embedding of a two-alternative strptime numeric field
(`XY|X` with value predicates for the two- and one-digit forms).  The
CPython `_strptime` regexes for `%m %d %H %M` accept one or two digits
with ordered alternation; since every follower in the two formats used
here (a literal, whitespace, or end of input) rejects a digit, the
greedy two-digit-first reading is equivalent to the regex semantics. -/
def parseFlex2 (valid2 valid1 : Nat → Bool) :
    List Char → Option (Nat × List Char)
  | c1 :: c2 :: rest =>
      if c1.isDigit && c2.isDigit && valid2 (digitVal c1 * 10 + digitVal c2) then
        some (digitVal c1 * 10 + digitVal c2, rest)
      else if c1.isDigit && valid1 (digitVal c1) then
        some (digitVal c1, c2 :: rest)
      else none
  | [c1] =>
      if c1.isDigit && valid1 (digitVal c1) then some (digitVal c1, []) else none
  | [] => none

/-- Expect one literal character. -/
def expectChar (c : Char) : List Char → Option (List Char)
  | c1 :: rest => if c1 = c then some rest else none
  | [] => none

/-- Whitespace in a strptime format string matches one or more whitespace
characters (`\s+`). -/
def skipSpaces1 : List Char → Option (List Char)
  | c1 :: rest => if isPySpace c1 then some (rest.dropWhile isPySpace) else none
  | [] => none

/-- Strptime `%Y-%m-%d` prefix: exactly four digits for the year, then
a literal dash, a 1-2 digit month in 1..12, a dash, a 1-2 digit day in
1..31 (per the `_strptime` regexes). -/
def parseYMD : List Char → Option (Nat × Nat × Nat × List Char)
  | y1 :: y2 :: y3 :: y4 :: rest =>
      if y1.isDigit && y2.isDigit && y3.isDigit && y4.isDigit then
        let y := ((digitVal y1 * 10 + digitVal y2) * 10 + digitVal y3) * 10 + digitVal y4
        match expectChar '-' rest with
        | none => none
        | some r1 =>
          match parseFlex2 (fun v => 1 ≤ v && v ≤ 12) (fun v => 1 ≤ v) r1 with
          | none => none
          | some (m, r2) =>
            match expectChar '-' r2 with
            | none => none
            | some r3 =>
              match parseFlex2 (fun v => 1 ≤ v && v ≤ 31) (fun v => 1 ≤ v) r3 with
              | none => none
              | some (d, r4) => some (y, m, d, r4)
      else none
  | _ => none

/-- `datetime.strptime(s, "%Y-%m-%d")` followed by `.date()`:
the whole input must be consumed and the date must be constructible. -/
def strptimeDate (cs : List Char) : Option PyDate :=
  match parseYMD cs with
  | some (y, m, d, []) => if validDate y m d then some ⟨y, m, d⟩ else none
  | _ => none

/-- `datetime.strptime(s, "%Y-%m-%d %H:%M")`: date part, one-or-more
whitespace, a 0-23 hour, a colon, a 0-59 minute, end of input. -/
def strptimeDateTime (cs : List Char) : Option PyDateTime :=
  match parseYMD cs with
  | none => none
  | some (y, m, d, r4) =>
    match skipSpaces1 r4 with
    | none => none
    | some r5 =>
      match parseFlex2 (fun v => v ≤ 23) (fun _ => true) r5 with
      | none => none
      | some (h, r6) =>
        match expectChar ':' r6 with
        | none => none
        | some r7 =>
          match parseFlex2 (fun v => v ≤ 59) (fun _ => true) r7 with
          | some (mi, []) => if validDate y m d then some ⟨⟨y, m, d⟩, h, mi⟩ else none
          | _ => none

/-- Detect the exact trailing suffix `" ET"` (Python `s.endswith(" ET")`). -/
def endsWithET (cs : List Char) : Bool :=
  match cs.reverse with
  | 'T' :: 'E' :: ' ' :: _ => true
  | _ => false

/-- Shared core of `main._parse_publish_date` and `main._sort_key` on a
character list: strip, strip an exact trailing `" ET"` (then strip
again), truncate the attempt to 16 characters, then try
`%Y-%m-%d %H:%M` and `%Y-%m-%d` in that order. -/
def publishDTChars (cs : List Char) : Option PyDateTime :=
  let t := stripChars cs
  let t2 := if endsWithET t then stripChars (t.dropLast.dropLast.dropLast) else t
  let u := t2.take 16
  match strptimeDateTime u with
  | some dt => some dt
  | none => (strptimeDate u).map (fun d => ⟨d, 0, 0⟩)

/-- The same parsing pipeline on a string. -/
def publishDateTime (s : String) : Option PyDateTime :=
  publishDTChars s.toList

/-- Embeds `main._parse_publish_date` (which returns `dt.date()` on
success and the `(None, False)` sentinel otherwise). -/
def parse_publish_date (s : String) : Option PyDate :=
  if stripChars s.toList = [] then none
  else (publishDateTime s).map (·.date)

/-- Embeds `main._sort_key` applied to a publish-date string: the parsed
datetime, or `datetime.min` when parsing fails, as a comparable key. -/
def sort_key (s : String) : Nat :=
  match publishDateTime s with
  | some dt => dtKey dt
  | none => dtKey pyDateTimeMin

/-- An article record as produced by `webflow_client.get_articles`. -/
structure Article where
  title : String
  url : String
  slug : String
  path : String
  publish_date : String
deriving DecidableEq, Repr

/-- Embeds `main._publish_year`. -/
def publish_year (a : Article) : Option Nat :=
  (parse_publish_date a.publish_date).map (·.year)

/-- Embeds `main._is_recent`; `nowOrd` is the ordinal of
`datetime.now().date()` and `refresh_days` is `REFRESH_DAYS`.  The
cutoff `(now - timedelta(days=REFRESH_DAYS)).date()` has ordinal
`nowOrd - refresh_days`. -/
def is_recent (refresh_days nowOrd : Nat) (a : Article) : Bool :=
  match parse_publish_date a.publish_date with
  | none => false
  | some d => (toOrdinal d : Int) ≥ (nowOrd : Int) - (refresh_days : Int)

/-- Metric record returned per path by the GA4 adapter:
`{"sessions": n, "totalUsers": n, "screenPageViews": n}`. -/
structure Traffic where
  sessions : Int
  totalUsers : Int
  screenPageViews : Int
deriving DecidableEq, Repr

/-- The all-zero metrics used as the default throughout. -/
def zeroTraffic : Traffic := ⟨0, 0, 0⟩

/-- One row of a GA4 `runReport` response after JSON decoding: the
`dimensionValues` value list, and the three requested metric values
(`metricValues[0..2]`, one per requested metric, already as integers). -/
structure GARow where
  dims : List String
  sessions : Int
  totalUsers : Int
  screenPageViews : Int
deriving DecidableEq, Repr

/-- The analytics backend: for a date range (`none` keeps the default
`TRAFFIC_DAYS` range inside the client) and an `inListFilter` batch, the
rows GA4 reports.  A fixed backend models a fixed analytics response. -/
abbrev Backend := Option (String × String) → List String → List GARow

/-- Collapse every run of consecutive slashes to a single slash: the
fixpoint of the `while "//" in p: p = p.replace("//", "/")` loop in
`ga4_client._normalize_path`.  The flag records whether the previously
kept character was a slash. -/
def collapseAux : Bool → List Char → List Char
  | _, [] => []
  | prevSlash, c :: cs =>
    if c = '/' then
      if prevSlash then collapseAux true cs else '/' :: collapseAux true cs
    else c :: collapseAux false cs

/-- Embeds `ga4_client._normalize_path`. -/
def normalize_path (path : String) : String :=
  if path = "" then "/"
  else
    let p0 := stripChars path.toList
    let p1 := p0.takeWhile (fun c => c ≠ '?')
    let p2 := p1.takeWhile (fun c => c ≠ '#')
    let p3 := if p2.head? = some '/' then p2 else '/' :: p2
    let p4 := collapseAux false p3
    let p5 := if p4 ≠ ['/'] && p4.getLast? = some '/' then p4.dropLast else p4
    ⟨p5⟩

/-- Embeds `ga4_client._chunked` (fuelled by the list length; the call
sites always use a positive size, so the fuel never runs out). -/
def chunkedAux (size : Nat) : Nat → List α → List (List α)
  | _, [] => []
  | 0, xs => [xs]
  | fuel + 1, xs => xs.take size :: chunkedAux size fuel (xs.drop size)

/-- `_chunked(values, size)`. -/
def chunked (size : Nat) (xs : List α) : List (List α) :=
  chunkedAux size xs.length xs

/-- `PATH_BATCH_SIZE` in `ga4_client.py`. -/
def PATH_BATCH_SIZE : Nat := 25

/-- One step of building `normalized_to_originals`:
`normalized_to_originals.setdefault(n, []).append(p)` on an
insertion-ordered association list. -/
def addToGroups : List (String × List String) → String → String → List (String × List String)
  | [], k, p => [(k, [p])]
  | (k', os) :: rest, k, p =>
    if k' = k then (k', os ++ [p]) :: rest
    else (k', os) :: addToGroups rest k p

/-- The `normalized_to_originals` mapping of `fetch_traffic_by_path`:
normalized path to the original request keys, in first-seen order. -/
def buildGroups (paths : List String) : List (String × List String) :=
  paths.foldl (fun gs p => addToGroups gs (normalize_path p) p) []

/-- Processing one response row into `normalized_result` (modelled as a
total function over the fixed key set `targets`): rows without
dimension values are skipped, rows whose normalized path is not a
requested key are ignored, and otherwise all three metrics are set. -/
def applyGARow (targets : List String) (f : String → Traffic) (row : GARow) :
    String → Traffic :=
  match row.dims with
  | [] => f
  | d :: _ =>
    let q := normalize_path d
    if q ∈ targets then
      fun x => if x = q then ⟨row.sessions, row.totalUsers, row.screenPageViews⟩ else f x
    else f

/-- The batched report loop of `fetch_traffic_by_path`: start from
all-zero metrics for every normalized target, then fold every response
row of every `PATH_BATCH_SIZE`-sized batch into the result. -/
def runBatches (backend : Backend) (range : Option (String × String))
    (targets : List String) : String → Traffic :=
  (chunked PATH_BATCH_SIZE targets).foldl
    (fun f batch => (backend range batch).foldl (fun g row => applyGARow targets g row) f)
    (fun _ => zeroTraffic)

/-- Embeds `ga4_client.fetch_traffic_by_path`: empty input short-circuits
to an empty map; otherwise the originals are grouped by normalized path,
the normalized keys are queried in batches, and the single per-key
result is broadcast back to every original request key. -/
def fetch_traffic_by_path (backend : Backend) (range : Option (String × String))
    (paths : List String) : List (String × Traffic) :=
  if paths = [] then []
  else
    let groups := buildGroups paths
    let targets := groups.map (·.1)
    let f := runBatches backend range targets
    groups.flatMap (fun g => g.2.map (fun o => (o, f g.1)))

/-- `MAX_RETRIES` in `ga4_client.py` and `sheets_writer.py`. -/
def MAX_RETRIES : Nat := 4

/-- Outcome of one invocation of the wrapped operation, after the
caller's retryability classifier (`RETRYABLE_STATUS_CODES` membership in
`ga4_client`, `_is_retryable_error` in `sheets_writer`) has been
applied: success, or a failure flagged retryable / non-retryable. -/
inductive AttemptOutcome (α : Type) where
  | ok : α → AttemptOutcome α
  | fail : Bool → AttemptOutcome α
deriving DecidableEq, Repr

/-- Observable trace of one run of the retry executor: the final result
(the error wraps the stage label and the attempt count, as the raised
`RuntimeError` message does), the backoff sleeps performed in order,
and the index of the final attempt (= number of invocations). -/
structure RetryTrace (α : Type) where
  result : Except (String × Nat) α
  sleeps : List Nat
  attempts : Nat
deriving Repr

/-- The retry loop shared by `ga4_client._run_report_with_retries` and
`sheets_writer._retry_call`: `attempt` is the 1-based attempt index,
`remaining` the number of attempts still allowed after this one.
A retryable failure with attempts remaining sleeps `2^(attempt-1)`
seconds and retries; otherwise the failure is wrapped and raised. -/
def retryGo (stage : String) (f : Nat → AttemptOutcome α) : Nat → Nat → RetryTrace α
  | attempt, 0 =>
    match f attempt with
    | .ok v => ⟨.ok v, [], attempt⟩
    | .fail _ => ⟨.error (stage, attempt), [], attempt⟩
  | attempt, rem + 1 =>
    match f attempt with
    | .ok v => ⟨.ok v, [], attempt⟩
    | .fail true =>
      let t := retryGo stage f (attempt + 1) rem
      ⟨t.result, 2 ^ (attempt - 1) :: t.sleeps, t.attempts⟩
    | .fail false => ⟨.error (stage, attempt), [], attempt⟩

/-- The retry executor: `for attempt in range(1, MAX_RETRIES + 1)`. -/
def retry_call (stage : String) (f : Nat → AttemptOutcome α) : RetryTrace α :=
  retryGo stage f 1 (MAX_RETRIES - 1)

/-- Embeds `main._is_zero_history` (snapshot columns `Sessions`,
`Users`, `Pageviews` are carried in the `sessions`, `totalUsers`,
`screenPageViews` fields respectively). -/
def is_zero_history (p : Traffic) : Bool :=
  p.sessions = 0 && p.totalUsers = 0 && p.screenPageViews = 0

/-- One output sheet row (`Title`, `URL`, `Publish Date`, `Sessions`,
`Users`, `Pageviews`). -/
structure Row where
  title : String
  url : String
  publish_date : String
  sessions : Int
  users : Int
  pageviews : Int
deriving DecidableEq, Repr

/-- Row for an article with explicit metric values. -/
def rowWith (a : Article) (s u p : Int) : Row :=
  ⟨a.title, a.url, a.publish_date, s, u, p⟩

/-- Row built from `t = traffic.get(path, {})` with
`t.get("sessions", 0)` etc. -/
def rowOfTraffic (a : Article) (t : Option Traffic) : Row :=
  rowWith a ((t.map (·.sessions)).getD 0) ((t.map (·.totalUsers)).getD 0)
    ((t.map (·.screenPageViews)).getD 0)

/-- All inputs of one `main.main` run: the fetched article list, the
sheet snapshot keyed by URL, the analytics backend, the current date's
ordinal, and the configuration values read from the environment
(`REFRESH_DAYS`, `HYDRATE_ZERO_OLDER`, `HYDRATE_MISSING_LIMIT`,
`BACKFILL_YEAR` already parsed as an integer when configured).
`yesterday` is the formatted `(now - timedelta(days=1))` date string. -/
structure Ctx where
  articles : List Article
  snapshot : List (String × Traffic)
  backend : Backend
  nowOrd : Nat
  refresh_days : Nat
  hydrate_zero_older : Bool
  hydrate_missing_limit : Nat
  yesterday : String
  backfill_year : Option Nat

/-- `recent_articles` in standard mode. -/
def recent_articles (c : Ctx) : List Article :=
  c.articles.filter (is_recent c.refresh_days c.nowOrd)

/-- `paths_recent` in standard mode. -/
def paths_recent (c : Ctx) : List String :=
  (recent_articles c).map (·.path)

/-- Standard-mode fresh fetch: skipped when there are no recent paths. -/
def traffic_recent (c : Ctx) : List (String × Traffic) :=
  if paths_recent c = [] then []
  else fetch_traffic_by_path c.backend none (paths_recent c)

/-- `older_missing`: older articles whose URL has no sheet row. -/
def older_missing (c : Ctx) : List Article :=
  c.articles.filter (fun a =>
    !is_recent c.refresh_days c.nowOrd a && (c.snapshot.lookup a.url).isNone)

/-- `older_zero`: when enabled, older articles with an existing all-zero
sheet row. -/
def older_zero (c : Ctx) : List Article :=
  if c.hydrate_zero_older then
    c.articles.filter (fun a =>
      !is_recent c.refresh_days c.nowOrd a && (c.snapshot.lookup a.url).isSome
        && is_zero_history ((c.snapshot.lookup a.url).getD zeroTraffic))
  else []

/-- Python dict assignment `m[k] = v` on an insertion-ordered
association list: replace in place or append. -/
def dictInsert : List (String × Article) → String → Article → List (String × Article)
  | [], k, v => [(k, v)]
  | (k', v') :: rest, k, v =>
    if k' = k then (k, v) :: rest else (k', v') :: dictInsert rest k v

/-- `hydrate_pool`: candidates deduplicated by URL, insertion-ordered. -/
def hydrate_pool (c : Ctx) : List (String × Article) :=
  (older_missing c ++ older_zero c).foldl (fun m a => dictInsert m a.url a) []

/-- The hydration sort key
`_parse_publish_date(...)[0] or datetime.min.date()` as an ordinal
(`datetime.min.date()` has ordinal 1). -/
def hydKey (a : Article) : Nat :=
  match parse_publish_date a.publish_date with
  | some d => toOrdinal d
  | none => 1

/-- Descending-by-key comparison for the stable hydration sort
(`hydrate_candidates_all.sort(key=..., reverse=True)`). -/
def hydLe (a b : Article) : Bool :=
  decide (hydKey b ≤ hydKey a)

/-- `hydrate_candidates_all` after the in-place sort. -/
def hydrate_candidates_all (c : Ctx) : List Article :=
  ((hydrate_pool c).map (·.2)).mergeSort hydLe

/-- `hydrate_candidates`: truncation to `HYDRATE_MISSING_LIMIT`
(`0` — and any non-positive value — disables hydration). -/
def hydrate_candidates (c : Ctx) : List Article :=
  if c.hydrate_missing_limit > 0 then
    (hydrate_candidates_all c).take c.hydrate_missing_limit
  else []

/-- The all-time hydration date range
(`hydro_start = "2015-08-14"`, `hydro_end` = yesterday). -/
def hydroRange (c : Ctx) : Option (String × String) :=
  some ("2015-08-14", c.yesterday)

/-- `historical_traffic`: fetched only when the truncated candidate set
is nonempty. -/
def historical_traffic (c : Ctx) : List (String × Traffic) :=
  if hydrate_candidates c = [] then []
  else fetch_traffic_by_path c.backend (hydroRange c) ((hydrate_candidates c).map (·.path))

/-- The standard-mode merged row for one article (lines 172-202 of
`main.py`): recent articles take the fresh fetch; older articles take
the snapshot, overridden by the hydration fetch only when the row is
missing or (with `HYDRATE_ZERO_OLDER`) all-zero and the article's path
was actually fetched. -/
def standard_row (c : Ctx) (a : Article) : Row :=
  if is_recent c.refresh_days c.nowOrd a then
    rowOfTraffic a ((traffic_recent c).lookup a.path)
  else
    let prev := c.snapshot.lookup a.url
    let shouldReplace :=
      prev.isNone || (c.hydrate_zero_older && is_zero_history (prev.getD zeroTraffic))
    match (historical_traffic c).lookup a.path, shouldReplace with
    | some t, true => rowWith a t.sessions t.totalUsers t.screenPageViews
    | _, _ =>
      rowWith a ((prev.map (·.sessions)).getD 0) ((prev.map (·.totalUsers)).getD 0)
        ((prev.map (·.screenPageViews)).getD 0)

/-- All standard-mode rows, one per article in input order (pre-sort). -/
def standard_rows (c : Ctx) : List Row :=
  c.articles.map (standard_row c)

/-- The final sort comparison of `main.main`
(`rows.sort(key=_sort_key, reverse=True)`), descending and stable. -/
def rowLe (r1 r2 : Row) : Bool :=
  decide (sort_key r2.publish_date ≤ sort_key r1.publish_date)

/-- The sort/format layer ordering. -/
def sortRows (rows : List Row) : List Row :=
  rows.mergeSort rowLe

/-- Which of the three `fetch_traffic_by_path` call sites issued a call. -/
inductive CallKind where
  | recentCall
  | hydrationCall
  | backfillCall
deriving DecidableEq, Repr

/-- One outbound analytics fetch recorded by the run. -/
structure FetchCall where
  kind : CallKind
  paths : List String
  range : Option (String × String)
deriving DecidableEq, Repr

/-- The analytics calls a standard-mode run performs, in order. -/
def standard_calls (c : Ctx) : List FetchCall :=
  (if paths_recent c = [] then [] else [⟨.recentCall, paths_recent c, none⟩])
    ++ (if hydrate_candidates c = [] then []
        else [⟨.hydrationCall, (hydrate_candidates c).map (·.path), hydroRange c⟩])

/-- Result of one `main.main` run: the rows written (`none` when the run
exited before writing), the process exit code, and the analytics fetches
performed. -/
structure MainResult where
  written : Option (List Row)
  exitCode : Nat
  calls : List FetchCall
deriving Repr

/-- Backfill-mode article filter: parsed publish year equals the target. -/
def backfill_articles (c : Ctx) (y : Nat) : List Article :=
  c.articles.filter (fun a => publish_year a = some y)

/-- Backfill date range: `f"{year}-01-01"` through yesterday. -/
def backfillRange (c : Ctx) (y : Nat) : Option (String × String) :=
  some (toString y ++ "-01-01", c.yesterday)

/-- Backfill-mode rows: every row's metrics come from the single
full-range fetch over the filtered articles' paths. -/
def backfill_rows (c : Ctx) (y : Nat) : List Row :=
  let arts := backfill_articles c y
  let traffic := fetch_traffic_by_path c.backend (backfillRange c y) (arts.map (·.path))
  arts.map (fun a => rowOfTraffic a (traffic.lookup a.path))

/-- Embeds `main.main` after config validation: exit 1 when no articles
were fetched; in backfill mode exit 0 without writing when no article
matches the year, else write the sorted full-range rows; in standard
mode write the sorted merged rows. -/
def main_run (c : Ctx) : MainResult :=
  if c.articles = [] then ⟨none, 1, []⟩
  else
    match c.backfill_year with
    | some y =>
      if backfill_articles c y = [] then ⟨none, 0, []⟩
      else
        ⟨some (sortRows (backfill_rows c y)), 0,
          [⟨.backfillCall, (backfill_articles c y).map (·.path), backfillRange c y⟩]⟩
    | none => ⟨some (sortRows (standard_rows c)), 0, standard_calls c⟩

/-- The observable run-status record `RUN_STATE` in `app.py`. -/
structure RunState where
  running : Bool
  started_at : Option Int
  last_status : String
  last_exit_code : Option Int
  last_duration_seconds : Option Int
  last_finished_at : Option Int
deriving DecidableEq, Repr

/-- The coordinator's shared state: the single-flight `RUN_LOCK` and the
`RUN_STATE` record (its own lock is modelled by treating each update as
atomic). -/
structure AppState where
  runLockHeld : Bool
  runState : RunState
deriving DecidableEq, Repr

/-- Responses of the `/run` endpoint relevant to run coordination:
403 Forbidden, 409 busy rejection, or a started streaming run. -/
inductive RunResponse where
  | forbidden
  | busy
  | started
deriving DecidableEq, Repr

/-- Embeds the entry of `app.run`: token check, then the non-blocking
`RUN_LOCK.acquire(blocking=False)`; on success the lock is taken and the
run-state marked running before the worker thread starts. -/
def run_endpoint (tokenOk : Bool) (startedTs : Int) (st : AppState) :
    RunResponse × AppState :=
  if !tokenOk then (.forbidden, st)
  else if st.runLockHeld then (.busy, st)
  else
    (.started,
      { runLockHeld := true,
        runState := { st.runState with
          running := true,
          started_at := some startedTs,
          last_status := "running",
          last_exit_code := none } })

/-- How the wrapped sync terminated inside `run_sync_in_thread`:
normal return, `SystemExit` (whose payload is the exit code when it is
an `int`), or any other exception. -/
inductive SyncOutcome where
  | success
  | systemExit (code : Option Int)
  | exception
deriving DecidableEq, Repr

/-- `status_ref` at thread exit. -/
def outcomeStatus : SyncOutcome → String
  | .success => "succeeded"
  | _ => "failed"

/-- `exit_code_ref` at thread exit (`e.code if isinstance(e.code, int)
else 1` for `SystemExit`). -/
def outcomeExitCode : SyncOutcome → Int
  | .success => 0
  | .systemExit (some i) => i
  | .systemExit none => 1
  | .exception => 1

/-- Embeds the `finally` block of `app.run_sync_in_thread`, reached on
every exit path (success, `SystemExit`, any other exception): the
run-state fields are finalized and `RUN_LOCK` is released. -/
def finalize_run (outcome : SyncOutcome) (startedTs endedTs : Int)
    (st : AppState) : AppState :=
  { runLockHeld := false,
    runState := { st.runState with
      running := false,
      last_status := outcomeStatus outcome,
      last_exit_code := some (outcomeExitCode outcome),
      last_duration_seconds := some (endedTs - startedTs),
      last_finished_at := some endedTs } }

/-- The ordering property asserted by the sort-layer claim: in the final
row list every row with an unparseable (or empty) publish date comes
after every row with a parseable one, i.e. once an unparseable row
appears, all later rows are unparseable too. -/
def unparseableLastRows (rows : List Row) : Prop :=
  ∀ i j : Fin rows.length, i < j →
    publishDateTime (rows.get i).publish_date = none →
    publishDateTime (rows.get j).publish_date = none

/-- Unparseable-first counterexample context: two older articles absent
from the snapshot, one with an unparseable date and one dated exactly
`0001-01-01`. -/
def c1ctx : Ctx :=
  ⟨[⟨"bad", "https://ex.com/bad", "bad", "/bad", "zzz"⟩,
    ⟨"min", "https://ex.com/min", "min", "/min", "0001-01-01"⟩],
   [], fun _ _ => [], toOrdinal ⟨2025, 3, 15⟩, 7, false, 5, "2025-03-14", none⟩

/-- Witness context for the standard-mode merge theorem: one older
article, an empty snapshot, hydration disabled by a zero limit. -/
def c2ctx : Ctx :=
  ⟨[⟨"old", "https://ex.com/old", "old", "/old", "zzz"⟩], [], fun _ _ => [],
   toOrdinal ⟨2025, 3, 15⟩, 7, false, 0, "2025-03-14", none⟩

/-- Witness context for backfill mode: one 2025 article. -/
def c5ctx : Ctx :=
  ⟨[⟨"t5", "https://ex.com/a5", "a5", "/a5", "2025-05-01"⟩], [], fun _ _ => [],
   toOrdinal ⟨2025, 6, 1⟩, 7, false, 5, "2025-05-31", some 2025⟩

/-- Full characterization of the retry loop from any starting attempt:
the final attempt index is bounded, every non-final attempt was a
retryable failure, exactly one backoff sleep of `2^(i-1)` seconds
follows each non-final attempt `i`, and the final attempt either
succeeded, failed non-retryably (immediate wrapped error), or was the
last allowed attempt. -/
theorem retryGo_spec (α : Type) (stage : String) (f : Nat → AttemptOutcome α) :
    ∀ (rem attempt : Nat), 1 ≤ attempt →
      attempt ≤ (retryGo stage f attempt rem).attempts
      ∧ (retryGo stage f attempt rem).attempts ≤ attempt + rem
      ∧ (∀ i, attempt ≤ i → i < (retryGo stage f attempt rem).attempts →
          f i = .fail true)
      ∧ (retryGo stage f attempt rem).sleeps
          = (List.range ((retryGo stage f attempt rem).attempts - attempt)).map
              (fun i => 2 ^ (attempt - 1 + i))
      ∧ ((∃ v, f (retryGo stage f attempt rem).attempts = .ok v
            ∧ (retryGo stage f attempt rem).result = .ok v)
         ∨ (f (retryGo stage f attempt rem).attempts = .fail false
            ∧ (retryGo stage f attempt rem).result
                = .error (stage, (retryGo stage f attempt rem).attempts))
         ∨ ((retryGo stage f attempt rem).attempts = attempt + rem
            ∧ f (attempt + rem) = .fail true
            ∧ (retryGo stage f attempt rem).result = .error (stage, attempt + rem))) := by
  intro rem
  induction rem with
  | zero =>
    intro attempt h1
    cases hf : f attempt with
    | ok v =>
      have hA : retryGo stage f attempt 0 = ⟨.ok v, [], attempt⟩ := by
        simp [retryGo, hf]
      refine ⟨by simp [hA], by simp [hA], ?_, by simp [hA], ?_⟩
      · intro i hi hlt
        rw [hA] at hlt
        simp only at hlt
        exact absurd (lt_of_le_of_lt hi hlt) (lt_irrefl _)
      · exact Or.inl ⟨v, by simp [hA, hf], by simp [hA]⟩
    | fail r =>
      have hA : retryGo stage f attempt 0 = ⟨.error (stage, attempt), [], attempt⟩ := by
        cases r <;> simp [retryGo, hf]
      refine ⟨by simp [hA], by simp [hA], ?_, by simp [hA], ?_⟩
      · intro i hi hlt
        rw [hA] at hlt
        simp only at hlt
        exact absurd (lt_of_le_of_lt hi hlt) (lt_irrefl _)
      · cases r with
        | false => exact Or.inr (Or.inl (by simp [hA, hf]))
        | true =>
          refine Or.inr (Or.inr ⟨by simp [hA], by simpa using hf, by simp [hA]⟩)
  | succ rem ih =>
    intro attempt h1
    cases hf : f attempt with
    | ok v =>
      have hA : retryGo stage f attempt (rem + 1) = ⟨.ok v, [], attempt⟩ := by
        simp [retryGo, hf]
      refine ⟨by simp [hA], by simp [hA], ?_, by simp [hA], ?_⟩
      · intro i hi hlt
        rw [hA] at hlt
        simp only at hlt
        exact absurd (lt_of_le_of_lt hi hlt) (lt_irrefl _)
      · exact Or.inl ⟨v, by simp [hA, hf], by simp [hA]⟩
    | fail r =>
      cases r with
      | false =>
        have hA : retryGo stage f attempt (rem + 1)
            = ⟨.error (stage, attempt), [], attempt⟩ := by
          simp [retryGo, hf]
        refine ⟨by simp [hA], by simp [hA], ?_, by simp [hA], ?_⟩
        · intro i hi hlt
          rw [hA] at hlt
          simp only at hlt
          exact absurd (lt_of_le_of_lt hi hlt) (lt_irrefl _)
        · exact Or.inr (Or.inl (by simp [hA, hf]))
      | true =>
        obtain ⟨ih1, ih2, ih3, ih4, ih5⟩ := ih (attempt + 1) (by omega)
        have hA : (retryGo stage f attempt (rem + 1)).attempts
            = (retryGo stage f (attempt + 1) rem).attempts := by
          simp [retryGo, hf]
        have hS : (retryGo stage f attempt (rem + 1)).sleeps
            = 2 ^ (attempt - 1) :: (retryGo stage f (attempt + 1) rem).sleeps := by
          simp [retryGo, hf]
        have hR : (retryGo stage f attempt (rem + 1)).result
            = (retryGo stage f (attempt + 1) rem).result := by
          simp [retryGo, hf]
        refine ⟨by rw [hA]; omega, by rw [hA]; omega, ?_, ?_, ?_⟩
        · intro i hi hlt
          rw [hA] at hlt
          rcases Nat.eq_or_lt_of_le hi with heq | hgt
          · exact heq ▸ hf
          · exact ih3 i (by omega) hlt
        · rw [hS, hA, ih4]
          have hk : (retryGo stage f (attempt + 1) rem).attempts - attempt
              = ((retryGo stage f (attempt + 1) rem).attempts - (attempt + 1)) + 1 := by
            omega
          rw [hk, List.range_succ_eq_map, List.map_cons, List.map_map]
          refine congrArg₂ _ (by simp) ?_
          refine List.map_congr_left ?_
          intro i _
          simp only [Function.comp]
          congr 1
          omega
        · rw [hA, hR]
          rcases ih5 with hcase | hcase | hcase
          · exact Or.inl hcase
          · exact Or.inr (Or.inl hcase)
          · refine Or.inr (Or.inr ⟨by omega, ?_, ?_⟩)
            · rw [show attempt + (rem + 1) = attempt + 1 + rem by omega]
              exact hcase.2.1
            · rw [show attempt + (rem + 1) = attempt + 1 + rem by omega]
              exact hcase.2.2

/-- C3: every outbound operation run through the retry executor is
attempted at most `MAX_RETRIES = 4` times; each retryable failure with
attempts remaining is followed by a backoff sleep of `2^(attempt-1)`
seconds and a retry; a non-retryable failure at any attempt fails
immediately (no further attempt, no sleep after it) with an error
wrapping the stage label and the attempt count, as both
`ga4_client._run_report_with_retries` and `sheets_writer._retry_call`
do. -/
theorem retry_executor_spec (α : Type) (stage : String) (f : Nat → AttemptOutcome α) :
    1 ≤ (retry_call stage f).attempts
    ∧ (retry_call stage f).attempts ≤ MAX_RETRIES
    ∧ (∀ i, 1 ≤ i → i < (retry_call stage f).attempts → f i = .fail true)
    ∧ (retry_call stage f).sleeps
        = (List.range ((retry_call stage f).attempts - 1)).map (fun i => 2 ^ i)
    ∧ ((∃ v, f (retry_call stage f).attempts = .ok v
          ∧ (retry_call stage f).result = .ok v)
       ∨ (f (retry_call stage f).attempts = .fail false
          ∧ (retry_call stage f).result = .error (stage, (retry_call stage f).attempts))
       ∨ ((retry_call stage f).attempts = MAX_RETRIES
          ∧ f MAX_RETRIES = .fail true
          ∧ (retry_call stage f).result = .error (stage, MAX_RETRIES))) := by
  obtain ⟨h1, h2, h3, h4, h5⟩ := retryGo_spec α stage f (MAX_RETRIES - 1) 1 (le_refl 1)
  refine ⟨h1, by simpa [MAX_RETRIES] using h2, h3, ?_, by simpa [MAX_RETRIES] using h5⟩
  rw [show retry_call stage f = retryGo stage f 1 (MAX_RETRIES - 1) from rfl, h4]
  exact List.map_congr_left (fun i _ => by norm_num)

/-- C6: a run request while the run-exclusivity lock is held is rejected
with the non-success busy response (HTTP 409) and leaves the state
untouched; and the `finally` block reached on every exit path of the
worker thread (success, `SystemExit`, any other exception) finalizes
status, exit code, duration and finished-at, and releases the lock. -/
theorem run_coordinator_spec (st : AppState) (outcome : SyncOutcome) (ts te : Int) :
    (st.runLockHeld = true → run_endpoint true ts st = (.busy, st))
    ∧ (finalize_run outcome ts te st).runLockHeld = false
    ∧ (finalize_run outcome ts te st).runState.running = false
    ∧ (finalize_run outcome ts te st).runState.last_status = outcomeStatus outcome
    ∧ (finalize_run outcome ts te st).runState.last_exit_code
        = some (outcomeExitCode outcome)
    ∧ (finalize_run outcome ts te st).runState.last_duration_seconds = some (te - ts)
    ∧ (finalize_run outcome ts te st).runState.last_finished_at = some te := by
  refine ⟨?_, rfl, rfl, rfl, rfl, rfl, rfl⟩
  intro h
  simp [run_endpoint, h]

/-- C8: `is_recent` holds exactly when the publish date parses and the
parsed date is on or after `now.date() - refresh_days`; with a 7-day
window and a fixed `now` of 2025-03-15, an article dated exactly 7 days
before is recent, 8 days before is not, and an unparseable date is
never recent. -/
theorem is_recent_spec (w nowOrd : Nat) (a : Article) :
    (is_recent w nowOrd a = true ↔
      ∃ d, parse_publish_date a.publish_date = some d
        ∧ (toOrdinal d : Int) ≥ (nowOrd : Int) - (w : Int))
    ∧ (parse_publish_date a.publish_date = none → is_recent w nowOrd a = false)
    ∧ toOrdinal ⟨2025, 3, 8⟩ + 7 = toOrdinal ⟨2025, 3, 15⟩
    ∧ is_recent 7 (toOrdinal ⟨2025, 3, 15⟩) ⟨"t", "u", "s", "/p", "2025-03-08"⟩ = true
    ∧ toOrdinal ⟨2025, 3, 7⟩ + 8 = toOrdinal ⟨2025, 3, 15⟩
    ∧ is_recent 7 (toOrdinal ⟨2025, 3, 15⟩) ⟨"t", "u", "s", "/p", "2025-03-07"⟩ = false
    ∧ is_recent 7 (toOrdinal ⟨2025, 3, 15⟩) ⟨"t", "u", "s", "/p", "not-a-date"⟩ = false := by
  refine ⟨?_, ?_, by decide, by decide, by decide, by decide, by decide⟩
  · cases h : parse_publish_date a.publish_date with
    | none => simp [is_recent, h]
    | some d => simp [is_recent, h]
  · intro h
    simp [is_recent, h]

/-- Dropping while a predicate holds is idempotent. -/
theorem dropWhile_idem (p : Char → Bool) (cs : List Char) :
    (cs.dropWhile p).dropWhile p = cs.dropWhile p := by
  induction cs with
  | nil => rfl
  | cons c cs ih =>
    by_cases h : p c = true
    · simp [List.dropWhile_cons, h, ih]
    · simp [List.dropWhile_cons, h]

/-- The head surviving a `dropWhile` fails the predicate. -/
theorem head_dropWhile_false (p : Char → Bool) (cs : List Char) (c : Char)
    (rest : List Char) (h : cs.dropWhile p = c :: rest) : p c = false := by
  induction cs with
  | nil => simp at h
  | cons a l ih =>
    rw [List.dropWhile_cons] at h
    split at h
    · exact ih h
    · next hpa =>
      cases h
      simpa using hpa

/-- A fully space-prefixed list stripped on both ends is empty. -/
theorem stripChars_of_dropWhile_nil (cs : List Char)
    (hcase : cs.dropWhile isPySpace = []) : stripChars cs = [] := by
  simp [stripChars, hcase]

/-- Appending `" ET"` to a list whose left-strip is empty strips to
`['E', 'T']`. -/
theorem stripChars_append_ET_of_nil (cs : List Char)
    (hcase : cs.dropWhile isPySpace = []) :
    stripChars (cs ++ [' ', 'E', 'T']) = ['E', 'T'] := by
  show (((cs ++ [' ', 'E', 'T']).dropWhile isPySpace).reverse.dropWhile
    isPySpace).reverse = ['E', 'T']
  rw [List.dropWhile_append, hcase]
  decide

/-- Appending `" ET"` to a list with a nonempty left-strip strips to the
left-strip followed by `" ET"` (the trailing `'T'` blocks right-stripping). -/
theorem stripChars_append_ET_of_cons (cs : List Char) (c : Char) (l : List Char)
    (hcase : cs.dropWhile isPySpace = c :: l) :
    stripChars (cs ++ [' ', 'E', 'T']) = (c :: l) ++ [' ', 'E', 'T'] := by
  show (((cs ++ [' ', 'E', 'T']).dropWhile isPySpace).reverse.dropWhile
    isPySpace).reverse = (c :: l) ++ [' ', 'E', 'T']
  rw [List.dropWhile_append, hcase]
  simp only [List.isEmpty_cons, Bool.false_eq_true, if_false]
  rw [List.reverse_append]
  show ((['T', 'E', ' '] ++ (c :: l).reverse).dropWhile isPySpace).reverse
    = (c :: l) ++ [' ', 'E', 'T']
  rw [show (['T', 'E', ' '] ++ (c :: l).reverse).dropWhile isPySpace
    = ['T', 'E', ' '] ++ (c :: l).reverse from rfl]
  rw [List.reverse_append, List.reverse_reverse]
  rfl

/-- Stripping the left-stripped form again equals stripping the
original list. -/
theorem stripChars_cons_eq (cs : List Char) (c : Char) (l : List Char)
    (hcase : cs.dropWhile isPySpace = c :: l) :
    stripChars (c :: l) = stripChars cs := by
  have hpc : isPySpace c = false := head_dropWhile_false _ _ _ _ hcase
  show (((c :: l).dropWhile isPySpace).reverse.dropWhile isPySpace).reverse
    = ((cs.dropWhile isPySpace).reverse.dropWhile isPySpace).reverse
  rw [hcase, List.dropWhile_cons, hpc]
  simp

/-- A list with a nonempty left-strip has a nonempty two-sided strip
(the non-space head survives). -/
theorem stripChars_ne_nil_of_cons (cs : List Char) (c : Char) (l : List Char)
    (hcase : cs.dropWhile isPySpace = c :: l) : stripChars cs ≠ [] := by
  have hpc : isPySpace c = false := head_dropWhile_false _ _ _ _ hcase
  intro hcontra
  have hstep : stripChars cs = ((c :: l).reverse.dropWhile isPySpace).reverse := by
    show ((cs.dropWhile isPySpace).reverse.dropWhile isPySpace).reverse = _
    rw [hcase]
  rw [hstep] at hcontra
  have h1 : (c :: l).reverse.dropWhile isPySpace = [] := by
    have := congrArg List.reverse hcontra
    simpa using this
  rw [List.dropWhile_eq_nil_iff] at h1
  have hc := h1 c (by simp)
  rw [hpc] at hc
  exact Bool.false_ne_true hc

/-- Appending the exact suffix `" ET"` to input whose stripped form does
not already end in `" ET"` leaves the parsed datetime unchanged: the
suffix is stripped before the formats are tried. -/
theorem publishDTChars_append_ET (cs : List Char)
    (h : endsWithET (stripChars cs) = false) :
    publishDTChars (cs ++ [' ', 'E', 'T']) = publishDTChars cs := by
  cases hcase : cs.dropWhile isPySpace with
  | nil =>
    have hs := stripChars_of_dropWhile_nil cs hcase
    have hS2 := stripChars_append_ET_of_nil cs hcase
    simp only [publishDTChars]
    rw [hS2, hs]
    decide
  | cons c l =>
    have hS2 := stripChars_append_ET_of_cons cs c l hcase
    have hET : endsWithET ((c :: l) ++ [' ', 'E', 'T']) = true := by
      simp [endsWithET, List.reverse_append]
    have hDL : ((c :: l) ++ [' ', 'E', 'T']).dropLast.dropLast.dropLast = c :: l := by
      rw [show (c :: l) ++ [' ', 'E', 'T'] = (((c :: l) ++ [' ']) ++ ['E']) ++ ['T'] by simp]
      rw [List.dropLast_concat, List.dropLast_concat, List.dropLast_concat]
    have hSC := stripChars_cons_eq cs c l hcase
    simp only [publishDTChars]
    rw [hS2, hET, hDL, hSC, h]
    simp

/-- String-level version of the `" ET"`-appending invariance. -/
theorem publishDateTime_append_ET (s : String)
    (h : endsWithET (stripChars s.toList) = false) :
    publishDateTime (s ++ " ET") = publishDateTime s := by
  show publishDTChars ((s ++ " ET").toList) = publishDTChars s.toList
  rw [show (s ++ " ET").toList = s.toList ++ [' ', 'E', 'T'] from by
    show (s ++ " ET").data = s.data ++ [' ', 'E', 'T']
    rw [String.data_append]]
  exact publishDTChars_append_ET s.toList h

/-- Appending `" ET"` commutes with the full parser as well. -/
theorem parse_publish_date_append_ET (s : String)
    (h : endsWithET (stripChars s.toList) = false) :
    parse_publish_date (s ++ " ET") = parse_publish_date s := by
  have htl : (s ++ " ET").toList = s.toList ++ [' ', 'E', 'T'] := by
    show (s ++ " ET").data = s.data ++ [' ', 'E', 'T']
    rw [String.data_append]
  cases hcase : s.toList.dropWhile isPySpace with
  | nil =>
    have hs : stripChars s.toList = [] := stripChars_of_dropWhile_nil _ hcase
    have hS2 : stripChars ((s ++ " ET").toList) = ['E', 'T'] := by
      rw [htl]
      exact stripChars_append_ET_of_nil _ hcase
    have hpdt : publishDateTime (s ++ " ET") = none := by
      show publishDTChars ((s ++ " ET").toList) = none
      rw [htl]
      simp only [publishDTChars]
      rw [stripChars_append_ET_of_nil _ hcase]
      decide
    rw [parse_publish_date, parse_publish_date, if_pos hs,
      if_neg (by rw [hS2]; simp), hpdt]
    rfl
  | cons c l =>
    have hne : stripChars s.toList ≠ [] := stripChars_ne_nil_of_cons _ c l hcase
    have hS2 : stripChars ((s ++ " ET").toList) = (c :: l) ++ [' ', 'E', 'T'] := by
      rw [htl]
      exact stripChars_append_ET_of_cons _ c l hcase
    rw [parse_publish_date, parse_publish_date, if_neg (by rw [hS2]; simp),
      if_neg hne, publishDateTime_append_ET s h]

/-- C9: the publish-date parser strips an exact trailing `" ET"` suffix
before parsing and accepts the formats `YYYY-MM-DD HH:MM` and
`YYYY-MM-DD` on the input truncated to 16 characters; the four listed
inputs parse successfully, the empty and non-date inputs return the
failure sentinel without raising, a 19-character timestamp succeeds via
truncation, and appending `" ET"` to any input whose stripped form does
not already end in `" ET"` does not change the result. -/
theorem date_parser_spec :
    parse_publish_date "2025-01-05 ET" = some ⟨2025, 1, 5⟩
    ∧ parse_publish_date "2025-01-05 14:30 ET" = some ⟨2025, 1, 5⟩
    ∧ parse_publish_date "2025-01-05 14:30" = some ⟨2025, 1, 5⟩
    ∧ parse_publish_date "2025-01-05" = some ⟨2025, 1, 5⟩
    ∧ parse_publish_date "" = none
    ∧ parse_publish_date "not-a-date" = none
    ∧ publishDateTime "2025-01-05 14:30" = some ⟨⟨2025, 1, 5⟩, 14, 30⟩
    ∧ parse_publish_date "2025-01-05 14:30:59" = some ⟨2025, 1, 5⟩
    ∧ (∀ s : String, endsWithET (stripChars s.toList) = false →
        parse_publish_date (s ++ " ET") = parse_publish_date s) :=
  ⟨by decide, by decide, by decide, by decide, by decide, by decide, by decide, by decide,
   parse_publish_date_append_ET⟩

/-- Witness for `date_parser_spec`: the `" ET"`-stripping clause applied
at the concrete input `"2025-01-05"`. -/
theorem date_parser_spec_witness :
    endsWithET (stripChars ("2025-01-05".toList)) = false
    ∧ parse_publish_date ("2025-01-05" ++ " ET") = parse_publish_date "2025-01-05" :=
  ⟨by decide, date_parser_spec.2.2.2.2.2.2.2.2 "2025-01-05" (by decide)⟩

/-- C7 counterexample: a row whose publish date parses to exactly
`datetime.min` (`"0001-01-01"`) receives the same sort key as an
unparseable row, so the stable sort leaves an unparseable row placed
before it: the claim that unparseable rows sort after every parseable
row fails on this input. -/
theorem sort_unparseable_last_counterexample :
    ¬ unparseableLastRows
      (sortRows [⟨"bad", "u1", "not-a-date", 0, 0, 0⟩,
                 ⟨"min", "u2", "0001-01-01", 0, 0, 0⟩]) := by
  have hs : sortRows [⟨"bad", "u1", "not-a-date", 0, 0, 0⟩,
      ⟨"min", "u2", "0001-01-01", 0, 0, 0⟩]
      = [⟨"bad", "u1", "not-a-date", 0, 0, 0⟩, ⟨"min", "u2", "0001-01-01", 0, 0, 0⟩] :=
    List.mergeSort_of_sorted (by decide)
  rw [unparseableLastRows, hs]
  intro hprop
  have := hprop ⟨0, by decide⟩ ⟨1, by decide⟩ (by decide) (by decide)
  revert this
  decide

/-- C7 (amended): the sort layer orders rows descending by the parsed
publish-datetime key, stably; rows with an unparseable date take the
minimum key (`datetime.min`) and hence come after every row whose
parsed datetime is strictly later (they may tie with rows parsing to
exactly `0001-01-01 00:00`), and the unparseable rows keep their
original relative order among themselves. -/
theorem sort_layer_spec (rows : List Row) :
    (sortRows rows).Pairwise
      (fun r1 r2 => sort_key r2.publish_date ≤ sort_key r1.publish_date)
    ∧ (sortRows rows).Perm rows
    ∧ (sortRows rows).filter (fun r => (publishDateTime r.publish_date).isNone)
        = rows.filter (fun r => (publishDateTime r.publish_date).isNone)
    ∧ (∀ i j : Fin (sortRows rows).length, i < j →
        publishDateTime ((sortRows rows).get i).publish_date = none →
        sort_key ((sortRows rows).get j).publish_date ≤ dtKey pyDateTimeMin) := by
  have htrans : ∀ a b c : Row, rowLe a b = true → rowLe b c = true → rowLe a c = true := by
    intro a b c h1 h2
    simp only [rowLe, decide_eq_true_eq] at h1 h2 ⊢
    omega
  have htot : ∀ a b : Row, (rowLe a b || rowLe b a) = true := by
    intro a b
    simp only [rowLe, Bool.or_eq_true, decide_eq_true_eq]
    omega
  have hsorted := List.sorted_mergeSort htrans htot rows
  have hpairwise : (sortRows rows).Pairwise
      (fun r1 r2 => sort_key r2.publish_date ≤ sort_key r1.publish_date) :=
    hsorted.imp (by intro a b hab; simpa [rowLe] using hab)
  refine ⟨hpairwise, List.mergeSort_perm rows rowLe, ?_, ?_⟩
  · have hpair : (rows.filter (fun r => (publishDateTime r.publish_date).isNone)).Pairwise
        (fun a b => rowLe a b = true) := by
      refine List.pairwise_of_forall_mem_list ?_
      intro a ha b hb
      have ha' := @List.of_mem_filter Row
        (fun r => (publishDateTime r.publish_date).isNone) a rows ha
      have hb' := @List.of_mem_filter Row
        (fun r => (publishDateTime r.publish_date).isNone) b rows hb
      rw [Option.isNone_iff_eq_none] at ha' hb'
      simp only [rowLe, decide_eq_true_eq]
      unfold sort_key
      rw [ha', hb']
    have hsub : (rows.filter (fun r => (publishDateTime r.publish_date).isNone)).Sublist
        (sortRows rows) :=
      List.sublist_mergeSort htrans htot hpair (List.filter_sublist rows)
    have hperm : ((sortRows rows).filter
          (fun r => (publishDateTime r.publish_date).isNone)).Perm
        (rows.filter (fun r => (publishDateTime r.publish_date).isNone)) :=
      (List.mergeSort_perm rows rowLe).filter _
    have hff : ((rows.filter (fun r => (publishDateTime r.publish_date).isNone)).filter
          (fun r => (publishDateTime r.publish_date).isNone))
        = rows.filter (fun r => (publishDateTime r.publish_date).isNone) := by
      apply List.filter_eq_self.mpr
      intro a ha
      exact @List.of_mem_filter Row
        (fun r => (publishDateTime r.publish_date).isNone) a rows ha
    have hsub2 : (rows.filter (fun r => (publishDateTime r.publish_date).isNone)).Sublist
        ((sortRows rows).filter (fun r => (publishDateTime r.publish_date).isNone)) := by
      have h2 := hsub.filter (fun r => (publishDateTime r.publish_date).isNone)
      rwa [hff] at h2
    exact (hsub2.eq_of_length hperm.length_eq.symm).symm
  · intro i j hij hnone
    have hkey : sort_key ((sortRows rows).get j).publish_date
        ≤ sort_key ((sortRows rows).get i).publish_date :=
      List.pairwise_iff_get.mp hpairwise i j hij
    have hmin : sort_key ((sortRows rows).get i).publish_date = dtKey pyDateTimeMin := by
      unfold sort_key
      rw [hnone]
    rw [hmin] at hkey
    exact hkey

/-- Association-list lookup returns the common value of all pairs whose
key matches, provided at least one pair matches. -/
theorem lookup_eq_some_of {β : Type} (l : List (String × β)) (p : String) (v : β)
    (hall : ∀ q ∈ l, q.1 = p → q.2 = v) (hex : ∃ q ∈ l, q.1 = p) :
    List.lookup p l = some v := by
  induction l with
  | nil =>
    rcases hex with ⟨q, hq, _⟩
    cases hq
  | cons q rest ih =>
    cases hbe : (p == q.1) with
    | true =>
      have heq : q.1 = p := (eq_of_beq hbe).symm
      have hv : q.2 = v := hall q (by simp) heq
      simp [List.lookup, hbe, hv]
    | false =>
      have hne : q.1 ≠ p := fun hcontra => by
        rw [hcontra] at hbe
        simp at hbe
      simp only [List.lookup, hbe]
      refine ih (fun q' hq' => hall q' (by simp [hq'])) ?_
      rcases hex with ⟨q', hq', hk⟩
      rcases List.mem_cons.mp hq' with rfl | hmem
      · exact absurd hk hne
      · exact ⟨q', hmem, hk⟩

/-- Association-list lookup succeeds exactly when some pair has the key. -/
theorem lookup_isSome_iff {β : Type} (l : List (String × β)) (p : String) :
    (List.lookup p l).isSome = true ↔ ∃ q ∈ l, q.1 = p := by
  induction l with
  | nil => simp [List.lookup]
  | cons q rest ih =>
    cases hbe : (p == q.1) with
    | true =>
      have heq : q.1 = p := (eq_of_beq hbe).symm
      simp only [List.lookup, hbe]
      exact iff_of_true rfl ⟨q, by simp, heq⟩
    | false =>
      have hne : q.1 ≠ p := fun hcontra => by
        rw [hcontra] at hbe
        simp at hbe
      simp only [List.lookup, hbe, ih]
      constructor
      · rintro ⟨q', hq', hk⟩
        exact ⟨q', by simp [hq'], hk⟩
      · rintro ⟨q', hq', hk⟩
        rcases List.mem_cons.mp hq' with rfl | hmem
        · exact absurd hk hne
        · exact ⟨q', hmem, hk⟩

/-- `addToGroups` preserves the invariant that every stored original
normalizes to its group key. -/
theorem addToGroups_norm (gs : List (String × List String)) (k v : String)
    (hgs : ∀ g ∈ gs, ∀ o ∈ g.2, normalize_path o = g.1)
    (hv : normalize_path v = k) :
    ∀ g ∈ addToGroups gs k v, ∀ o ∈ g.2, normalize_path o = g.1 := by
  induction gs with
  | nil =>
    intro g hg o ho
    simp only [addToGroups, List.mem_singleton] at hg
    subst hg
    simp only [List.mem_singleton] at ho
    subst ho
    exact hv
  | cons q rest ih =>
    obtain ⟨k2, os⟩ := q
    by_cases hqk : k2 = k
    · intro g hg o ho
      rw [show addToGroups ((k2, os) :: rest) k v = (k2, os ++ [v]) :: rest from by
        simp [addToGroups, hqk]] at hg
      rcases List.mem_cons.mp hg with rfl | hmem
      · rcases List.mem_append.mp ho with hin | hin
        · exact hgs (k2, os) (by simp) o hin
        · simp only [List.mem_singleton] at hin
          subst hin
          exact hv.trans hqk.symm
      · exact hgs g (by simp [hmem]) o ho
    · intro g hg o ho
      rw [show addToGroups ((k2, os) :: rest) k v = (k2, os) :: addToGroups rest k v from by
        simp [addToGroups, hqk]] at hg
      rcases List.mem_cons.mp hg with rfl | hmem
      · exact hgs (k2, os) (by simp) o ho
      · exact ih (fun g2 hg2 => hgs g2 (by simp [hg2])) g hmem o ho

/-- Keys after `addToGroups`: unchanged when the key is present,
appended otherwise. -/
theorem addToGroups_keys (gs : List (String × List String)) (k v : String) :
    (addToGroups gs k v).map (·.1)
      = if k ∈ gs.map (·.1) then gs.map (·.1) else gs.map (·.1) ++ [k] := by
  induction gs with
  | nil => simp [addToGroups]
  | cons q rest ih =>
    obtain ⟨k2, os⟩ := q
    by_cases hqk : k2 = k
    · subst hqk
      rw [show addToGroups ((k2, os) :: rest) k2 v = (k2, os ++ [v]) :: rest from by
        simp [addToGroups]]
      simp
    · rw [show addToGroups ((k2, os) :: rest) k v = (k2, os) :: addToGroups rest k v from by
        simp [addToGroups, hqk]]
      simp only [List.map_cons, ih]
      by_cases hk : k ∈ rest.map (·.1)
      · rw [if_pos hk, if_pos (show k ∈ k2 :: rest.map (·.1) by simp [hk])]
      · rw [if_neg hk, if_neg (show k ∉ k2 :: rest.map (·.1) from by
          simp only [List.mem_cons]
          rintro (h | h)
          · exact hqk h.symm
          · exact hk h)]
        simp

/-- Membership in the groups after `addToGroups`. -/
theorem addToGroups_mem (gs : List (String × List String)) (k v o : String) :
    (∃ g ∈ addToGroups gs k v, o ∈ g.2) ↔ (∃ g ∈ gs, o ∈ g.2) ∨ o = v := by
  induction gs with
  | nil => simp [addToGroups]
  | cons q rest ih =>
    obtain ⟨k2, os⟩ := q
    by_cases hqk : k2 = k
    · rw [show addToGroups ((k2, os) :: rest) k v = (k2, os ++ [v]) :: rest from by
        simp [addToGroups, hqk]]
      constructor
      · rintro ⟨g, hg, ho⟩
        rcases List.mem_cons.mp hg with rfl | hmem
        · rcases List.mem_append.mp ho with hin | hin
          · exact Or.inl ⟨(k2, os), by simp, hin⟩
          · exact Or.inr (by simpa using hin)
        · exact Or.inl ⟨g, by simp [hmem], ho⟩
      · rintro (⟨g, hg, ho⟩ | rfl)
        · rcases List.mem_cons.mp hg with rfl | hmem
          · exact ⟨(k2, os ++ [v]), by simp, by simp [ho]⟩
          · exact ⟨g, by simp [hmem], ho⟩
        · exact ⟨(k2, os ++ [o]), by simp, by simp⟩
    · rw [show addToGroups ((k2, os) :: rest) k v = (k2, os) :: addToGroups rest k v from by
        simp [addToGroups, hqk]]
      constructor
      · rintro ⟨g, hg, ho⟩
        rcases List.mem_cons.mp hg with rfl | hmem
        · exact Or.inl ⟨(k2, os), by simp, ho⟩
        · rcases ih.mp ⟨g, hmem, ho⟩ with ⟨g2, hg2, ho2⟩ | h
          · exact Or.inl ⟨g2, by simp [hg2], ho2⟩
          · exact Or.inr h
      · rintro (⟨g, hg, ho⟩ | rfl)
        · rcases List.mem_cons.mp hg with rfl | hmem
          · exact ⟨(k2, os), by simp, ho⟩
          · rcases ih.mpr (Or.inl ⟨g, hmem, ho⟩) with ⟨g2, hg2, ho2⟩
            exact ⟨g2, by simp [hg2], ho2⟩
        · rcases ih.mpr (Or.inr rfl) with ⟨g2, hg2, ho2⟩
          exact ⟨g2, by simp [hg2], ho2⟩

/-- The three invariants of `buildGroups`, established over the fold. -/
theorem foldl_addToGroups_inv (paths : List String) :
    ∀ acc : List (String × List String),
      (∀ g ∈ acc, ∀ o ∈ g.2, normalize_path o = g.1) →
      ((acc.map (·.1)).Nodup) →
      (∀ g ∈ paths.foldl (fun gs p => addToGroups gs (normalize_path p) p) acc,
        ∀ o ∈ g.2, normalize_path o = g.1)
      ∧ (((paths.foldl (fun gs p => addToGroups gs (normalize_path p) p) acc).map
          (·.1)).Nodup)
      ∧ (∀ o, (∃ g ∈ paths.foldl (fun gs p => addToGroups gs (normalize_path p) p) acc,
          o ∈ g.2) ↔ (∃ g ∈ acc, o ∈ g.2) ∨ o ∈ paths) := by
  induction paths with
  | nil =>
    intro acc h1 h2
    refine ⟨h1, h2, fun o => ?_⟩
    simp
  | cons p ps ih =>
    intro acc h1 h2
    have hstep1 : ∀ g ∈ addToGroups acc (normalize_path p) p, ∀ o ∈ g.2,
        normalize_path o = g.1 := addToGroups_norm acc _ p h1 rfl
    have hstep2 : ((addToGroups acc (normalize_path p) p).map (·.1)).Nodup := by
      rw [addToGroups_keys]
      split
      · exact h2
      · next hnotmem =>
        simpa using List.Nodup.append h2 (by simp) (by simpa using hnotmem)
    obtain ⟨ha, hb, hc⟩ := ih (addToGroups acc (normalize_path p) p) hstep1 hstep2
    refine ⟨ha, hb, fun o => ?_⟩
    rw [show (p :: ps).foldl (fun gs p => addToGroups gs (normalize_path p) p) acc
      = ps.foldl (fun gs p => addToGroups gs (normalize_path p) p)
          (addToGroups acc (normalize_path p) p) from rfl]
    rw [hc o, addToGroups_mem, List.mem_cons]
    exact or_assoc

/-- Every requested path's lookup yields the fetched value for its
normalized key. -/
theorem fetch_lookup_eq (backend : Backend) (range : Option (String × String))
    (paths : List String) (p : String) (hp : p ∈ paths) :
    List.lookup p (fetch_traffic_by_path backend range paths)
      = some (runBatches backend range ((buildGroups paths).map (·.1))
          (normalize_path p)) := by
  have hne : paths ≠ [] := List.ne_nil_of_mem hp
  obtain ⟨hnorm, hnodup, hmem⟩ := foldl_addToGroups_inv paths [] (by simp) (by simp)
  simp only [fetch_traffic_by_path, if_neg hne]
  refine lookup_eq_some_of _ p _ ?_ ?_
  · intro q hq hk
    rcases List.mem_flatMap.mp hq with ⟨g, hg, hqg⟩
    rcases List.mem_map.mp hqg with ⟨o, ho, rfl⟩
    simp only at hk
    subst hk
    have := hnorm g hg o ho
    rw [← this]
  · have : (∃ g ∈ buildGroups paths, p ∈ g.2) := by
      rw [buildGroups, hmem p]
      simp [hp]
    rcases this with ⟨g, hg, hpg⟩
    refine ⟨(p, runBatches backend range ((buildGroups paths).map (·.1)) g.1), ?_, rfl⟩
    exact List.mem_flatMap.mpr ⟨g, by rwa [buildGroups], List.mem_map.mpr ⟨p, hpg, rfl⟩⟩

/-- A response row that does not target `x` leaves the value at `x`
unchanged. -/
theorem applyGARow_preserve (targets : List String) (f : String → Traffic)
    (row : GARow) (x : String)
    (h : ∀ d, row.dims.head? = some d → normalize_path d ≠ x) :
    applyGARow targets f row x = f x := by
  unfold applyGARow
  cases hd : row.dims with
  | nil => rfl
  | cons d rest =>
    have hne := h d (by rw [hd]; rfl)
    by_cases hq : normalize_path d ∈ targets
    · simp only [if_pos hq]
      rw [if_neg (fun hcontra => hne hcontra.symm)]
    · simp only [if_neg hq]

/-- Folding rows none of which target `x` preserves the value at `x`. -/
theorem foldl_applyGARow_preserve (targets : List String) (rows : List GARow)
    (x : String)
    (h : ∀ row ∈ rows, ∀ d, row.dims.head? = some d → normalize_path d ≠ x) :
    ∀ f : String → Traffic,
      (rows.foldl (fun g row => applyGARow targets g row) f) x = f x := by
  induction rows with
  | nil => intro f; rfl
  | cons row rest ih =>
    intro f
    rw [List.foldl_cons]
    rw [ih (fun r hr => h r (by simp [hr]))]
    exact applyGARow_preserve targets f row x (h row (by simp))

/-- If no batch response ever reports a row for `x`, the batched report
loop leaves `x` at the all-zero default. -/
theorem runBatches_zero (backend : Backend) (range : Option (String × String))
    (targets : List String) (x : String)
    (h : ∀ (b : List String) (row : GARow), row ∈ backend range b →
      ∀ d, row.dims.head? = some d → normalize_path d ≠ x) :
    runBatches backend range targets x = zeroTraffic := by
  unfold runBatches
  have haux : ∀ (bs : List (List String)) (f : String → Traffic),
      (bs.foldl (fun f batch =>
        (backend range batch).foldl (fun g row => applyGARow targets g row) f) f) x
      = f x := by
    intro bs
    induction bs with
    | nil => intro f; rfl
    | cons b rest ih =>
      intro f
      rw [List.foldl_cons, ih, foldl_applyGARow_preserve targets (backend range b) x
        (fun row hrow => h b row hrow)]
  rw [haux]

/-- C4: two requested paths that normalize to the same canonical path
receive equal traffic records from `fetch_traffic_by_path` — the single
fetched result for the shared normalized key is broadcast back to every
original key. -/
theorem normalization_broadcast (backend : Backend) (range : Option (String × String))
    (paths : List String) (p1 p2 : String)
    (h1 : p1 ∈ paths) (h2 : p2 ∈ paths)
    (hn : normalize_path p1 = normalize_path p2) :
    List.lookup p1 (fetch_traffic_by_path backend range paths)
      = List.lookup p2 (fetch_traffic_by_path backend range paths) := by
  rw [fetch_lookup_eq backend range paths p1 h1,
    fetch_lookup_eq backend range paths p2 h2, hn]

/-- Witness for `normalization_broadcast` at `"/a/"` and `"a"`, which
both normalize to `"/a"`. -/
theorem normalization_broadcast_witness :
    ("/a/" ∈ ["/a/", "a"] ∧ "a" ∈ ["/a/", "a"]
      ∧ normalize_path "/a/" = normalize_path "a")
    ∧ List.lookup "/a/" (fetch_traffic_by_path (fun _ _ => [⟨["/a"], 3, 4, 5⟩]) none
        ["/a/", "a"])
      = List.lookup "a" (fetch_traffic_by_path (fun _ _ => [⟨["/a"], 3, 4, 5⟩]) none
        ["/a/", "a"]) :=
  ⟨⟨by decide, by decide, by decide⟩,
   normalization_broadcast (fun _ _ => [⟨["/a"], 3, 4, 5⟩]) none ["/a/", "a"] "/a/" "a"
     (by decide) (by decide) (by decide)⟩

/-- C10: the map returned by `fetch_traffic_by_path` has exactly the
input paths as keys (empty input gives an empty map), and any requested
path for which the analytics response never reports a matching row maps
to all-zero metrics, so a caller's lookup never misses. -/
theorem fetch_traffic_domain (backend : Backend) (range : Option (String × String))
    (paths : List String) :
    (paths = [] → fetch_traffic_by_path backend range paths = [])
    ∧ (∀ p, (List.lookup p (fetch_traffic_by_path backend range paths)).isSome = true
        ↔ p ∈ paths)
    ∧ (∀ p, p ∈ paths →
        (∀ (b : List String) (row : GARow), row ∈ backend range b →
          ∀ d, row.dims.head? = some d → normalize_path d ≠ normalize_path p) →
        List.lookup p (fetch_traffic_by_path backend range paths) = some zeroTraffic) := by
  refine ⟨fun hnil => by simp [fetch_traffic_by_path, hnil], ?_, ?_⟩
  · intro p
    constructor
    · intro hsome
      by_cases hne : paths = []
      · rw [hne] at hsome ⊢
        simp [fetch_traffic_by_path] at hsome
      · obtain ⟨hnorm, hnodup, hmem⟩ := foldl_addToGroups_inv paths [] (by simp) (by simp)
        rw [show fetch_traffic_by_path backend range paths
            = (buildGroups paths).flatMap (fun g => g.2.map
                (fun o => (o, runBatches backend range ((buildGroups paths).map (·.1))
                  g.1))) from by simp [fetch_traffic_by_path, if_neg hne]] at hsome
        rcases (lookup_isSome_iff _ p).mp hsome with ⟨q, hq, hk⟩
        rcases List.mem_flatMap.mp hq with ⟨g, hg, hqg⟩
        rcases List.mem_map.mp hqg with ⟨o, ho, rfl⟩
        simp only at hk
        subst hk
        exact ((hmem _).mp ⟨g, by rwa [← buildGroups], ho⟩).resolve_left (by simp)
    · intro hp
      rw [fetch_lookup_eq backend range paths p hp]
      rfl
  · intro p hp hnl
    rw [fetch_lookup_eq backend range paths p hp,
      runBatches_zero backend range _ (normalize_path p) hnl]

/-- Witness for `fetch_traffic_domain`: one requested path, a backend
reporting only an unrelated path, and the resulting zero row. -/
theorem fetch_traffic_domain_witness :
    List.lookup "/a" (fetch_traffic_by_path
      (fun _ _ => [⟨["/b"], 7, 8, 9⟩]) none ["/a"]) = some zeroTraffic := by
  refine (fetch_traffic_domain (fun _ _ => [⟨["/b"], 7, 8, 9⟩]) none ["/a"]).2.2 "/a"
    (by decide) ?_
  intro b row hrow d hd
  simp only [List.mem_singleton] at hrow
  subst hrow
  simp only [List.head?] at hd
  cases hd
  decide

/-- Every pair of a `dictInsert` result is an old pair or the inserted one. -/
theorem dictInsert_mem (m : List (String × Article)) (k : String) (v : Article) :
    ∀ kv ∈ dictInsert m k v, kv ∈ m ∨ kv = (k, v) := by
  induction m with
  | nil =>
    intro kv hkv
    simp only [dictInsert, List.mem_singleton] at hkv
    exact Or.inr hkv
  | cons q rest ih =>
    obtain ⟨k2, v2⟩ := q
    by_cases hq : k2 = k
    · intro kv hkv
      rw [show dictInsert ((k2, v2) :: rest) k v = (k, v) :: rest from by
        simp [dictInsert, hq]] at hkv
      rcases List.mem_cons.mp hkv with rfl | hmem
      · exact Or.inr rfl
      · exact Or.inl (by simp [hmem])
    · intro kv hkv
      rw [show dictInsert ((k2, v2) :: rest) k v = (k2, v2) :: dictInsert rest k v from by
        simp [dictInsert, hq]] at hkv
      rcases List.mem_cons.mp hkv with rfl | hmem
      · exact Or.inl (by simp)
      · rcases ih kv hmem with h | h
        · exact Or.inl (by simp [h])
        · exact Or.inr h

/-- Keys after `dictInsert`: unchanged when present, appended otherwise. -/
theorem dictInsert_keys (m : List (String × Article)) (k : String) (v : Article) :
    (dictInsert m k v).map (·.1)
      = if k ∈ m.map (·.1) then m.map (·.1) else m.map (·.1) ++ [k] := by
  induction m with
  | nil => simp [dictInsert]
  | cons q rest ih =>
    obtain ⟨k2, v2⟩ := q
    by_cases hq : k2 = k
    · subst hq
      rw [show dictInsert ((k2, v2) :: rest) k2 v = (k2, v) :: rest from by
        simp [dictInsert]]
      simp
    · rw [show dictInsert ((k2, v2) :: rest) k v = (k2, v2) :: dictInsert rest k v from by
        simp [dictInsert, hq]]
      simp only [List.map_cons, ih]
      by_cases hk : k ∈ rest.map (·.1)
      · rw [if_pos hk, if_pos (show k ∈ k2 :: rest.map (·.1) by simp [hk])]
      · rw [if_neg hk, if_neg (show k ∉ k2 :: rest.map (·.1) from by
          simp only [List.mem_cons]
          rintro (h | h)
          · exact hq h.symm
          · exact hk h)]
        simp

/-- Key membership after `dictInsert`. -/
theorem dictInsert_key_mem (m : List (String × Article)) (k : String) (v : Article)
    (u : String) :
    (∃ kv ∈ dictInsert m k v, kv.1 = u) ↔ (∃ kv ∈ m, kv.1 = u) ∨ u = k := by
  induction m with
  | nil =>
    simp only [dictInsert, List.mem_singleton]
    constructor
    · rintro ⟨kv, rfl, hk⟩
      exact Or.inr hk.symm
    · rintro (⟨kv, hkv, _⟩ | heq)
      · cases hkv
      · exact ⟨(k, v), rfl, heq.symm⟩
  | cons q rest ih =>
    obtain ⟨k2, v2⟩ := q
    by_cases hq : k2 = k
    · rw [show dictInsert ((k2, v2) :: rest) k v = (k, v) :: rest from by
        simp [dictInsert, hq]]
      constructor
      · rintro ⟨kv, hkv, hk⟩
        rcases List.mem_cons.mp hkv with rfl | hmem
        · exact Or.inr hk.symm
        · exact Or.inl ⟨kv, by simp [hmem], hk⟩
      · rintro (⟨kv, hkv, hk⟩ | heq)
        · rcases List.mem_cons.mp hkv with rfl | hmem
          · exact ⟨(k, v), by simp, hq ▸ hk⟩
          · exact ⟨kv, by simp [hmem], hk⟩
        · exact ⟨(k, v), by simp, heq.symm⟩
    · rw [show dictInsert ((k2, v2) :: rest) k v = (k2, v2) :: dictInsert rest k v from by
        simp [dictInsert, hq]]
      constructor
      · rintro ⟨kv, hkv, hk⟩
        rcases List.mem_cons.mp hkv with rfl | hmem
        · exact Or.inl ⟨(k2, v2), by simp, hk⟩
        · rcases ih.mp ⟨kv, hmem, hk⟩ with ⟨kv2, hkv2, hk2⟩ | h
          · exact Or.inl ⟨kv2, by simp [hkv2], hk2⟩
          · exact Or.inr h
      · rintro (⟨kv, hkv, hk⟩ | rfl)
        · rcases List.mem_cons.mp hkv with rfl | hmem
          · exact ⟨(k2, v2), by simp, hk⟩
          · rcases ih.mpr (Or.inl ⟨kv, hmem, hk⟩) with ⟨kv2, hkv2, hk2⟩
            exact ⟨kv2, by simp [hkv2], hk2⟩
        · rcases ih.mpr (Or.inr rfl) with ⟨kv2, hkv2, hk2⟩
          exact ⟨kv2, by simp [hkv2], hk2⟩

/-- Invariants of the `hydrate_pool` fold: each stored key is its
article's URL, keys are unique, each stored article comes from the
folded list (or the accumulator), and the key set is exactly the URL
set of the folded list (plus the accumulator's). -/
theorem foldl_dictInsert_inv (L : List Article) :
    ∀ acc : List (String × Article),
      (∀ kv ∈ acc, kv.1 = kv.2.url) →
      ((acc.map (·.1)).Nodup) →
      (∀ kv ∈ L.foldl (fun m a => dictInsert m a.url a) acc, kv.1 = kv.2.url)
      ∧ ((L.foldl (fun m a => dictInsert m a.url a) acc).map (·.1)).Nodup
      ∧ (∀ kv ∈ L.foldl (fun m a => dictInsert m a.url a) acc,
          kv ∈ acc ∨ kv.2 ∈ L)
      ∧ (∀ u, (∃ kv ∈ L.foldl (fun m a => dictInsert m a.url a) acc, kv.1 = u)
          ↔ (∃ kv ∈ acc, kv.1 = u) ∨ ∃ a ∈ L, a.url = u) := by
  induction L with
  | nil =>
    intro acc h1 h2
    refine ⟨h1, h2, fun kv hkv => Or.inl hkv, fun u => ?_⟩
    simp
  | cons a as ih =>
    intro acc h1 h2
    have hstep1 : ∀ kv ∈ dictInsert acc a.url a, kv.1 = kv.2.url := by
      intro kv hkv
      rcases dictInsert_mem acc a.url a kv hkv with h | rfl
      · exact h1 kv h
      · rfl
    have hstep2 : ((dictInsert acc a.url a).map (·.1)).Nodup := by
      rw [dictInsert_keys]
      split
      · exact h2
      · next hnotmem =>
        simpa using List.Nodup.append h2 (by simp) (by simpa using hnotmem)
    obtain ⟨ha1, ha2, ha3, ha4⟩ := ih (dictInsert acc a.url a) hstep1 hstep2
    have hfold : (a :: as).foldl (fun m a => dictInsert m a.url a) acc
        = as.foldl (fun m a => dictInsert m a.url a) (dictInsert acc a.url a) := rfl
    rw [hfold]
    refine ⟨ha1, ha2, ?_, fun u => ?_⟩
    · intro kv hkv
      rcases ha3 kv hkv with hin | hin
      · rcases dictInsert_mem acc a.url a kv hin with h | rfl
        · exact Or.inl h
        · exact Or.inr (by simp)
      · exact Or.inr (by simp [hin])
    · rw [ha4 u, dictInsert_key_mem]
      simp only [List.mem_cons]
      constructor
      · rintro ((h | rfl) | ⟨b, hb, hbu⟩)
        · exact Or.inl h
        · exact Or.inr ⟨a, Or.inl rfl, rfl⟩
        · exact Or.inr ⟨b, Or.inr hb, hbu⟩
      · rintro (h | ⟨b, rfl | hb, hbu⟩)
        · exact Or.inl (Or.inl h)
        · exact Or.inl (Or.inr hbu.symm)
        · exact Or.inr ⟨b, hb, hbu⟩

/-- Membership characterization of `older_missing`. -/
theorem mem_older_missing (c : Ctx) (a : Article) :
    a ∈ older_missing c ↔ a ∈ c.articles
      ∧ is_recent c.refresh_days c.nowOrd a = false
      ∧ c.snapshot.lookup a.url = none := by
  simp [older_missing, List.mem_filter, Bool.not_eq_true', Option.isNone_iff_eq_none,
    and_assoc]

/-- Membership characterization of `older_zero`. -/
theorem mem_older_zero (c : Ctx) (a : Article) :
    a ∈ older_zero c ↔ c.hydrate_zero_older = true ∧ a ∈ c.articles
      ∧ is_recent c.refresh_days c.nowOrd a = false
      ∧ ∃ t, c.snapshot.lookup a.url = some t ∧ is_zero_history t = true := by
  unfold older_zero
  split
  · next hzo =>
    constructor
    · intro hmemf
      obtain ⟨hmem, hp⟩ := List.mem_filter.mp hmemf
      simp only [Bool.and_eq_true, Bool.not_eq_true'] at hp
      obtain ⟨⟨hrec, hsome⟩, hzero⟩ := hp
      rcases Option.isSome_iff_exists.mp hsome with ⟨t, ht⟩
      rw [ht] at hzero
      exact ⟨hzo, hmem, hrec, t, ht, by simpa using hzero⟩
    · rintro ⟨_, hmem, hrec, t, ht, hzero⟩
      refine List.mem_filter.mpr ⟨hmem, ?_⟩
      simp only [Bool.and_eq_true, Bool.not_eq_true']
      exact ⟨⟨hrec, by simp [ht]⟩, by simp [ht, hzero]⟩
  · next hzo =>
    simp only [List.not_mem_nil, false_iff]
    rintro ⟨h, _⟩
    exact hzo h

/-- The pool invariants specialized to `hydrate_pool`. -/
theorem hydrate_pool_spec (c : Ctx) :
    (∀ kv ∈ hydrate_pool c, kv.1 = kv.2.url)
    ∧ ((hydrate_pool c).map (·.1)).Nodup
    ∧ (∀ kv ∈ hydrate_pool c, kv.2 ∈ older_missing c ++ older_zero c)
    ∧ (∀ u, (∃ kv ∈ hydrate_pool c, kv.1 = u)
        ↔ ∃ a ∈ older_missing c ++ older_zero c, a.url = u) := by
  unfold hydrate_pool
  obtain ⟨h1, h2, h3, h4⟩ := foldl_dictInsert_inv (older_missing c ++ older_zero c) []
    (by simp) (by simp)
  refine ⟨h1, h2, fun kv hkv => ?_, fun u => ?_⟩
  · rcases h3 kv hkv with h | h
    · simp at h
    · exact h
  · rw [h4 u]
    simp

/-- The hydration comparison is transitive. -/
theorem hydLe_trans : ∀ a b d : Article,
    hydLe a b = true → hydLe b d = true → hydLe a d = true := by
  intro a b d h1 h2
  simp only [hydLe, decide_eq_true_eq] at h1 h2 ⊢
  omega

/-- The hydration comparison is total. -/
theorem hydLe_total : ∀ a b : Article, (hydLe a b || hydLe b a) = true := by
  intro a b
  simp only [hydLe, Bool.or_eq_true, decide_eq_true_eq]
  omega

/-- Membership in the sorted candidate list is membership in the pool
values. -/
theorem mem_hydrate_candidates_all (c : Ctx) (a : Article) :
    a ∈ hydrate_candidates_all c ↔ ∃ kv ∈ hydrate_pool c, kv.2 = a := by
  unfold hydrate_candidates_all
  rw [(List.mergeSort_perm _ hydLe).mem_iff]
  simp [List.mem_map]

/-- Every sorted candidate is an eligible older article. -/
theorem hydrate_candidates_all_sub (c : Ctx) :
    ∀ a ∈ hydrate_candidates_all c, a ∈ older_missing c ++ older_zero c := by
  intro a ha
  rcases (mem_hydrate_candidates_all c a).mp ha with ⟨kv, hkv, rfl⟩
  exact (hydrate_pool_spec c).2.2.1 kv hkv

/-- The sorted candidate list has pairwise-distinct URLs (the pool
deduplicates by URL). -/
theorem hydrate_candidates_all_urls_nodup (c : Ctx) :
    ((hydrate_candidates_all c).map (·.url)).Nodup := by
  obtain ⟨h1, h2, _, _⟩ := hydrate_pool_spec c
  have hmapeq : ((hydrate_pool c).map (·.2)).map (·.url) = (hydrate_pool c).map (·.1) := by
    rw [List.map_map]
    exact List.map_congr_left (fun kv hkv => (h1 kv hkv).symm)
  have hperm : ((hydrate_candidates_all c).map (·.url)).Perm
      (((hydrate_pool c).map (·.2)).map (·.url)) :=
    (List.mergeSort_perm _ hydLe).map _
  rw [hmapeq] at hperm
  exact hperm.nodup_iff.mpr h2

/-- The candidate list is sorted descending by the hydration key. -/
theorem hydrate_candidates_all_sorted (c : Ctx) :
    (hydrate_candidates_all c).Pairwise (fun a b => hydKey b ≤ hydKey a) :=
  (List.sorted_mergeSort hydLe_trans hydLe_total _).imp
    (by intro a b hab; simpa [hydLe] using hab)

/-- The truncation always equals a `take` (any non-positive limit takes
nothing). -/
theorem hydrate_candidates_eq_take (c : Ctx) :
    hydrate_candidates c = (hydrate_candidates_all c).take c.hydrate_missing_limit := by
  unfold hydrate_candidates
  by_cases h : c.hydrate_missing_limit > 0
  · rw [if_pos h]
  · rw [if_neg h]
    have h0 : c.hydrate_missing_limit = 0 := by omega
    rw [h0, List.take_zero]

/-- C1 counterexample: in `c1ctx` the unparseable-dated candidate keys
to `datetime.min.date()` and ties with the candidate parsed as exactly
`0001-01-01`, so the stable sort leaves the unparseable candidate
first: the claim that unparseable candidates sort last is false. -/
theorem hydration_unparseable_last_counterexample :
    ¬ (∀ i j : Fin (hydrate_candidates_all c1ctx).length, i < j →
        parse_publish_date ((hydrate_candidates_all c1ctx).get i).publish_date = none →
        parse_publish_date ((hydrate_candidates_all c1ctx).get j).publish_date = none) := by
  have hca : hydrate_candidates_all c1ctx
      = [⟨"bad", "https://ex.com/bad", "bad", "/bad", "zzz"⟩,
         ⟨"min", "https://ex.com/min", "min", "/min", "0001-01-01"⟩] := by
    unfold hydrate_candidates_all
    rw [show (hydrate_pool c1ctx).map (·.2)
        = [⟨"bad", "https://ex.com/bad", "bad", "/bad", "zzz"⟩,
           ⟨"min", "https://ex.com/min", "min", "/min", "0001-01-01"⟩] from by decide]
    exact List.mergeSort_of_sorted (by decide)
  rw [hca]
  intro hprop
  have := hprop ⟨0, by decide⟩ ⟨1, by decide⟩ (by decide) (by decide)
  revert this
  decide

/-- C1 (amended): in standard mode the hydration candidate pool is
exactly the set (by URL) of older articles missing from the snapshot,
together — when `HYDRATE_ZERO_OLDER` is enabled — with older articles
whose snapshot row is all-zero; it is deduplicated by URL and sorted
descending by the hydration key (parsed publish date, with unparseable
dates keyed as the minimum date `0001-01-01`, hence sorting after any
strictly later parse but tying with an exact minimum-date parse); the
fetched set is the first `hydrate_missing_limit` entries of that order
(so each kept candidate's key is at least every dropped candidate's
key), and a limit of `0` causes no hydration fetch at all. -/
theorem hydration_candidates_spec (c : Ctx) (hb : c.backfill_year = none) :
    (∀ a ∈ hydrate_candidates_all c, a ∈ c.articles
        ∧ is_recent c.refresh_days c.nowOrd a = false)
    ∧ (∀ u, (∃ a ∈ hydrate_candidates_all c, a.url = u)
        ↔ ∃ a ∈ c.articles, a.url = u ∧ is_recent c.refresh_days c.nowOrd a = false
            ∧ (c.snapshot.lookup a.url = none
               ∨ (c.hydrate_zero_older = true ∧ ∃ t, c.snapshot.lookup a.url = some t
                    ∧ is_zero_history t = true)))
    ∧ ((hydrate_candidates_all c).map (·.url)).Nodup
    ∧ (hydrate_candidates_all c).Pairwise (fun a b => hydKey b ≤ hydKey a)
    ∧ hydrate_candidates c = (hydrate_candidates_all c).take c.hydrate_missing_limit
    ∧ (hydrate_candidates c).length
        = min c.hydrate_missing_limit (hydrate_candidates_all c).length
    ∧ (c.hydrate_missing_limit = 0 →
        ∀ call ∈ (main_run c).calls, call.kind ≠ CallKind.hydrationCall)
    ∧ (∀ a ∈ hydrate_candidates c,
        ∀ b ∈ (hydrate_candidates_all c).drop c.hydrate_missing_limit,
          hydKey b ≤ hydKey a) := by
  refine ⟨?_, ?_, hydrate_candidates_all_urls_nodup c, hydrate_candidates_all_sorted c,
    hydrate_candidates_eq_take c, ?_, ?_, ?_⟩
  · intro a ha
    rcases List.mem_append.mp (hydrate_candidates_all_sub c a ha) with h | h
    · obtain ⟨h1, h2, _⟩ := (mem_older_missing c a).mp h
      exact ⟨h1, h2⟩
    · obtain ⟨_, h1, h2, _⟩ := (mem_older_zero c a).mp h
      exact ⟨h1, h2⟩
  · intro u
    constructor
    · rintro ⟨a, ha, hurl⟩
      rcases List.mem_append.mp (hydrate_candidates_all_sub c a ha) with h | h
      · obtain ⟨h1, h2, h3⟩ := (mem_older_missing c a).mp h
        exact ⟨a, h1, hurl, h2, Or.inl h3⟩
      · obtain ⟨hzo, h1, h2, t, ht, hzero⟩ := (mem_older_zero c a).mp h
        exact ⟨a, h1, hurl, h2, Or.inr ⟨hzo, t, ht, hzero⟩⟩
    · rintro ⟨a, hart, hurl, hrec, hcond⟩
      have hL : a ∈ older_missing c ++ older_zero c := by
        rcases hcond with hnone | ⟨hzo, t, ht, hzero⟩
        · exact List.mem_append.mpr (Or.inl
            ((mem_older_missing c a).mpr ⟨hart, hrec, hnone⟩))
        · exact List.mem_append.mpr (Or.inr
            ((mem_older_zero c a).mpr ⟨hzo, hart, hrec, t, ht, hzero⟩))
      obtain ⟨hkv1, _, _, hkv4⟩ := hydrate_pool_spec c
      rcases (hkv4 a.url).mpr ⟨a, hL, rfl⟩ with ⟨kv, hkv, hku⟩
      refine ⟨kv.2, (mem_hydrate_candidates_all c kv.2).mpr ⟨kv, hkv, rfl⟩, ?_⟩
      rw [← hkv1 kv hkv, hku, hurl]
  · rw [hydrate_candidates_eq_take, List.length_take]
  · intro h0 call hcall
    have hcand : hydrate_candidates c = [] := by
      unfold hydrate_candidates
      rw [h0]
      simp
    by_cases hart : c.articles = []
    · rw [show (main_run c).calls = [] from by rw [main_run, if_pos hart]] at hcall
      simp at hcall
    · rw [show (main_run c).calls = standard_calls c from by
        rw [main_run, if_neg hart, hb]] at hcall
      rw [standard_calls, hcand] at hcall
      by_cases hpr : paths_recent c = []
      · rw [if_pos hpr] at hcall
        simp at hcall
      · rw [if_neg hpr] at hcall
        simp only [List.mem_append, List.mem_singleton] at hcall
        rcases hcall with rfl | hcall
        · simp
        · simp at hcall
  · intro a hmemtake b hmemdrop
    have hq := hydrate_candidates_all_sorted c
    rw [← List.take_append_drop c.hydrate_missing_limit (hydrate_candidates_all c)]
      at hq
    rw [hydrate_candidates_eq_take] at hmemtake
    exact (List.pairwise_append.mp hq).2.2 a hmemtake b hmemdrop

/-- Witness for `hydration_candidates_spec` at the concrete `c1ctx`. -/
theorem hydration_candidates_spec_witness :
    c1ctx.backfill_year = none
    ∧ hydrate_candidates c1ctx
        = (hydrate_candidates_all c1ctx).take c1ctx.hydrate_missing_limit :=
  ⟨rfl, (hydration_candidates_spec c1ctx rfl).2.2.2.2.1⟩

/-- Every truncated hydration candidate is one of the run's articles. -/
theorem hydrate_candidates_sub_articles (c : Ctx) :
    ∀ a ∈ hydrate_candidates c, a ∈ c.articles := by
  intro a ha
  rw [hydrate_candidates_eq_take] at ha
  have ha2 := List.take_subset _ _ ha
  rcases List.mem_append.mp (hydrate_candidates_all_sub c a ha2) with h | h
  · exact ((mem_older_missing c a).mp h).1
  · exact ((mem_older_zero c a).mp h).2.1

/-- When an article's URL was not selected for hydration, its path is
not a key of the hydration fetch result.  Uses the invariant of
`webflow_client.get_articles` that articles sharing a path share a URL
(`url = WEBFLOW_SITE_DOMAIN ++ path`). -/
theorem historical_lookup_none (c : Ctx) (a : Article)
    (ha : a ∈ c.articles)
    (hinj : ∀ b1 ∈ c.articles, ∀ b2 ∈ c.articles, b1.path = b2.path → b1.url = b2.url)
    (hnotsel : a.url ∉ (hydrate_candidates c).map (·.url)) :
    (historical_traffic c).lookup a.path = none := by
  unfold historical_traffic
  by_cases hc : hydrate_candidates c = []
  · rw [if_pos hc]
    rfl
  · rw [if_neg hc]
    have hdom := (fetch_traffic_domain c.backend (hydroRange c)
      ((hydrate_candidates c).map (·.path))).2.1 a.path
    have hnm : a.path ∉ (hydrate_candidates c).map (·.path) := by
      intro hmem
      rcases List.mem_map.mp hmem with ⟨b, hb, hbp⟩
      have hbart : b ∈ c.articles := hydrate_candidates_sub_articles c b hb
      have hurl : b.url = a.url := hinj b hbart a ha hbp
      exact hnotsel (List.mem_map.mpr ⟨b, hb, hurl⟩)
    cases hLk : List.lookup a.path (fetch_traffic_by_path c.backend (hydroRange c)
        ((hydrate_candidates c).map (·.path))) with
    | none => rfl
    | some t => exact absurd (hdom.mp (by rw [hLk]; rfl)) hnm

/-- C2: in standard mode, hydration-fetched metrics override an older
article's row only when it was selected into the truncated set: an
older article whose URL was not selected keeps its snapshot-based row;
in particular with no snapshot entry its row is all-zero (never an
error), and an older article with a snapshot entry that is not eligible
for hydration reproduces the snapshot metrics unchanged.  The `hinj`
hypothesis is the invariant of `webflow_client.get_articles` that
distinct articles sharing a `path` share a `url`. -/
theorem standard_merge_spec (c : Ctx) (a : Article)
    (ha : a ∈ c.articles)
    (hold : is_recent c.refresh_days c.nowOrd a = false)
    (hinj : ∀ b1 ∈ c.articles, ∀ b2 ∈ c.articles, b1.path = b2.path → b1.url = b2.url) :
    (a.url ∉ (hydrate_candidates c).map (·.url) →
      standard_row c a = rowWith a
        (((c.snapshot.lookup a.url).map (·.sessions)).getD 0)
        (((c.snapshot.lookup a.url).map (·.totalUsers)).getD 0)
        (((c.snapshot.lookup a.url).map (·.screenPageViews)).getD 0))
    ∧ (a.url ∉ (hydrate_candidates c).map (·.url) →
        c.snapshot.lookup a.url = none →
        standard_row c a = rowWith a 0 0 0)
    ∧ (∀ t, c.snapshot.lookup a.url = some t →
        ¬ (c.hydrate_zero_older = true ∧ is_zero_history t = true) →
        standard_row c a = rowWith a t.sessions t.totalUsers t.screenPageViews) := by
  have hA : ∀ _h : a.url ∉ (hydrate_candidates c).map (·.url),
      standard_row c a = rowWith a
        (((c.snapshot.lookup a.url).map (·.sessions)).getD 0)
        (((c.snapshot.lookup a.url).map (·.totalUsers)).getD 0)
        (((c.snapshot.lookup a.url).map (·.screenPageViews)).getD 0) := by
    intro hns
    have hnone := historical_lookup_none c a ha hinj hns
    simp only [standard_row, hold, Bool.false_eq_true, if_false, hnone]
  refine ⟨hA, fun hns hlk => ?_, fun t ht hnz => ?_⟩
  · rw [hA hns, hlk]
    rfl
  · have hbz : (c.hydrate_zero_older && is_zero_history t) = false := by
      cases h1 : c.hydrate_zero_older with
      | false => rfl
      | true =>
        cases h2 : is_zero_history t with
        | false => rfl
        | true => exact absurd ⟨h1, h2⟩ hnz
    cases hl : (historical_traffic c).lookup a.path with
    | none =>
      simp only [standard_row, hold, Bool.false_eq_true, if_false, ht, hl,
        Option.getD_some, Option.isNone_some, Bool.false_or, hbz, Option.map_some']
    | some tr =>
      simp only [standard_row, hold, Bool.false_eq_true, if_false, ht, hl,
        Option.getD_some, Option.isNone_some, Bool.false_or, hbz, Option.map_some']

/-- Witness for `standard_merge_spec`: the unselected, snapshot-less
older article's row is all-zero. -/
theorem standard_merge_spec_witness :
    ((⟨"old", "https://ex.com/old", "old", "/old", "zzz"⟩ : Article) ∈ c2ctx.articles
      ∧ is_recent c2ctx.refresh_days c2ctx.nowOrd
          ⟨"old", "https://ex.com/old", "old", "/old", "zzz"⟩ = false
      ∧ ("https://ex.com/old" : String) ∉ (hydrate_candidates c2ctx).map (·.url)
      ∧ c2ctx.snapshot.lookup "https://ex.com/old" = none)
    ∧ standard_row c2ctx ⟨"old", "https://ex.com/old", "old", "/old", "zzz"⟩
        = rowWith ⟨"old", "https://ex.com/old", "old", "/old", "zzz"⟩ 0 0 0 := by
  refine ⟨⟨by decide, by decide, by decide, rfl⟩, ?_⟩
  exact (standard_merge_spec c2ctx ⟨"old", "https://ex.com/old", "old", "/old", "zzz"⟩
    (by decide) (by decide) (by decide)).2.1 (by decide) rfl

/-- C5: in backfill mode (a year is configured), articles are filtered
to those whose parsed publish year equals the target, the single
analytics fetch covers `[Jan 1 of that year, yesterday]`, every row's
metrics come directly from that fetch with no snapshot fallback (the
output is invariant under any snapshot), and when no article matches
the year the run exits with code 0 without writing rows and without
fetching. -/
theorem backfill_spec (c : Ctx) (y : Nat)
    (hy : c.backfill_year = some y) (hart : c.articles ≠ []) :
    (backfill_articles c y = [] → main_run c = ⟨none, 0, []⟩)
    ∧ (backfill_articles c y ≠ [] →
        (main_run c).exitCode = 0
        ∧ (main_run c).calls = [⟨CallKind.backfillCall,
            (backfill_articles c y).map (·.path),
            some (toString y ++ "-01-01", c.yesterday)⟩]
        ∧ (main_run c).written = some (sortRows ((backfill_articles c y).map (fun a =>
            rowOfTraffic a ((fetch_traffic_by_path c.backend
              (some (toString y ++ "-01-01", c.yesterday))
              ((backfill_articles c y).map (·.path))).lookup a.path)))))
    ∧ (∀ snap : List (String × Traffic),
        main_run { c with snapshot := snap } = main_run c)
    ∧ (∀ a ∈ backfill_articles c y, ∃ d, parse_publish_date a.publish_date = some d
        ∧ d.year = y) := by
  have hred : main_run c = (if backfill_articles c y = [] then ⟨none, 0, []⟩
      else ⟨some (sortRows (backfill_rows c y)), 0,
        [⟨CallKind.backfillCall, (backfill_articles c y).map (·.path),
          backfillRange c y⟩]⟩) := by
    rw [main_run, if_neg hart, hy]
  refine ⟨?_, ?_, ?_, ?_⟩
  · intro hempty
    rw [hred, if_pos hempty]
  · intro hne
    have hmr : main_run c = ⟨some (sortRows (backfill_rows c y)), 0,
        [⟨CallKind.backfillCall, (backfill_articles c y).map (·.path),
          backfillRange c y⟩]⟩ := by
      rw [hred, if_neg hne]
    refine ⟨by rw [hmr], by rw [hmr]; rfl, by rw [hmr]; rfl⟩
  · intro snap
    simp only [main_run, hy, backfill_articles, backfill_rows, backfillRange]
  · intro a hf
    obtain ⟨hmem, hp⟩ := List.mem_filter.mp hf
    rw [decide_eq_true_eq] at hp
    unfold publish_year at hp
    exact Option.map_eq_some'.mp hp

/-- Witness for `backfill_spec` at `c5ctx`. -/
theorem backfill_spec_witness :
    (c5ctx.backfill_year = some 2025 ∧ c5ctx.articles ≠ []
      ∧ backfill_articles c5ctx 2025 ≠ [])
    ∧ (main_run c5ctx).exitCode = 0 :=
  ⟨⟨rfl, by decide, by decide⟩,
   ((backfill_spec c5ctx 2025 rfl (by decide)).2.1 (by decide)).1⟩

/-- Witness for `retry_executor_spec`: an immediately succeeding
operation stays within the attempt bound. -/
theorem retry_executor_spec_witness :
    (retry_call "stage" (fun _ => AttemptOutcome.ok (0 : Nat))).attempts ≤ MAX_RETRIES :=
  (retry_executor_spec Nat "stage" (fun _ => AttemptOutcome.ok 0)).2.1

/-- Witness for `run_coordinator_spec`: a busy rejection at a concrete
held-lock state, and the released lock after an exception exit. -/
theorem run_coordinator_spec_witness :
    run_endpoint true 0 ⟨true, ⟨true, some 0, "running", none, none, none⟩⟩
      = (RunResponse.busy, ⟨true, ⟨true, some 0, "running", none, none, none⟩⟩)
    ∧ (finalize_run SyncOutcome.exception 0 5
        ⟨true, ⟨true, some 0, "running", none, none, none⟩⟩).runLockHeld = false := by
  have h := run_coordinator_spec ⟨true, ⟨true, some 0, "running", none, none, none⟩⟩
    SyncOutcome.exception 0 5
  exact ⟨h.1 rfl, h.2.1⟩

/-- Witness for `sort_layer_spec` at a concrete two-row list. -/
theorem sort_layer_spec_witness :
    (sortRows [⟨"a", "u1", "2025-01-02", 1, 1, 1⟩, ⟨"b", "u2", "2025-01-03", 2, 2, 2⟩]).Perm
      [⟨"a", "u1", "2025-01-02", 1, 1, 1⟩, ⟨"b", "u2", "2025-01-03", 2, 2, 2⟩] :=
  (sort_layer_spec [⟨"a", "u1", "2025-01-02", 1, 1, 1⟩,
    ⟨"b", "u2", "2025-01-03", 2, 2, 2⟩]).2.1

/-- Witness for `is_recent_spec`: the exactly-7-days boundary instance. -/
theorem is_recent_spec_witness :
    is_recent 7 (toOrdinal ⟨2025, 3, 15⟩) ⟨"t", "u", "s", "/p", "2025-03-08"⟩ = true :=
  (is_recent_spec 0 0 ⟨"t", "u", "s", "/p", ""⟩).2.2.2.1
